import Mathlib

/-!
# Verification of `convert_shorqasm.py` (QASM macro expander / gate lowering)

A shallow embedding of the script's text-rewriting core.  Lines of text are
modelled as `List Char`.  The Python regular expressions used by the script
are each embedded as executable deterministic matchers that reproduce the
behaviour of CPython's `re` engine on the concrete patterns appearing in the
source (leftmost match, greedy quantifiers with backtracking; for these
patterns backtracking is only observable in the head-identifier group of
`call_pat` and the gate-header pattern, which is modelled explicitly).

Python's `\s` is modelled for the six ASCII whitespace characters and `\w`
for ASCII word characters, matching the script's ASCII QASM inputs.
-/

/-- ASCII whitespace, Python's `\s` on the script's ASCII inputs. -/
def wsChar (c : Char) : Bool :=
  c = ' ' || c = '\t' || c = '\n' || c = '\r' || c = '\x0b' || c = '\x0c'

/-- ASCII word character, Python's `\w` on the script's ASCII inputs. -/
def wordChar (c : Char) : Bool :=
  c.isAlphanum || c = '_'

/-- The character class `[\w\[\]0-9]` used for qubit references in
`cp_pattern` and `p_pattern`. -/
def qChar (c : Char) : Bool :=
  wordChar c || c = '[' || c = ']'

/-- The character class `[\w\[\]0-9_,\s]` of `call_pat`'s third group. -/
def callChar (c : Char) : Bool :=
  wordChar c || c = '[' || c = ']' || c = ',' || wsChar c

/-- The character class `[\w,\s]` of the gate-definition header pattern. -/
def gdChar (c : Char) : Bool :=
  wordChar c || c = ',' || wsChar c

/-- String literal to character list. -/
def strL (s : String) : List Char := s.toList

/-- Is `c` the first character of the list? -/
def headIs (c : Char) : List Char → Bool
  | [] => false
  | x :: _ => x = c

/-- Does the list start with the two given characters? -/
def lead2 (a b : Char) : List Char → Bool
  | x :: y :: _ => x = a && y = b
  | _ => false

/-- Does the list start with the three given characters? -/
def lead3 (a b c : Char) : List Char → Bool
  | x :: y :: z :: _ => x = a && y = b && z = c
  | _ => false

/-- `re.sub` scanner with fuel: at each position try the matcher `m`;
on a match `(replacement, rest)` emit the replacement and continue after the
match, otherwise emit the character and move one position right.  All
matchers embedded here consume at least one character, so fuel equal to the
input length never runs out. -/
def reSub (m : List Char → Option (List Char × List Char)) :
    Nat → List Char → List Char
  | 0, l => l
  | _ + 1, [] => []
  | f + 1, c :: r =>
    match m (c :: r) with
    | some (rep, rest) => rep ++ reSub m f rest
    | none => c :: reSub m f r

/-- `pattern.sub` over a whole line. -/
def subAll (m : List Char → Option (List Char × List Char)) (l : List Char) :
    List Char :=
  reSub m l.length l

/-- `pattern.search(...)` as a Boolean: does the matcher succeed at some
position? -/
def reSearch (m : List Char → Option (List Char × List Char)) :
    List Char → Bool
  | [] => (m []).isSome
  | c :: r => (m (c :: r)).isSome || reSearch m r

/-- Matcher for `cp_pattern`:
`cp\(([^)]+)\)\s+([\w\[\]0-9]+)\s*,\s*([\w\[\]0-9]+)\s*;`
anchored at the current position; returns `(theta, ctrl, tgt, rest)`. -/
def cpCore (r : List Char) :
    Option (List Char × List Char × List Char × List Char) :=
  let th := r.takeWhile (· != ')')
  let r1 := r.drop th.length
  if th.isEmpty then none else
  if headIs ')' r1 then
    let r2 := r1.tail
    let w := r2.takeWhile wsChar
    if w.isEmpty then none else
    let r3 := r2.drop w.length
    let cq := r3.takeWhile qChar
    if cq.isEmpty then none else
    let r4 := (r3.drop cq.length).dropWhile wsChar
    if headIs ',' r4 then
      let r6 := r4.tail.dropWhile wsChar
      let tq := r6.takeWhile qChar
      if tq.isEmpty then none else
      let r7 := (r6.drop tq.length).dropWhile wsChar
      if headIs ';' r7 then some (th, cq, tq, r7.tail) else none
    else none
  else none

def cpMatch (l : List Char) :
    Option (List Char × List Char × List Char × List Char) :=
  if lead3 'c' 'p' '(' l then cpCore (l.drop 3) else none

/-- The four-statement replacement built by `cp_to_native`'s `_sub`,
with `half = f"(({theta})/2)"`. -/
def cpRepl (th cq tq : List Char) : List Char :=
  let half := '(' :: '(' :: th ++ [')', '/', '2', ')']
  strL "u(0,0," ++ half ++ ')' :: ' ' :: tq ++ ';' :: '\n' ::
  strL "cx " ++ cq ++ ',' :: tq ++ ';' :: '\n' ::
  strL "u(0,0,-" ++ half ++ ')' :: ' ' :: tq ++ ';' :: '\n' ::
  strL "cx " ++ cq ++ ',' :: tq ++ [';']

def cpM (l : List Char) : Option (List Char × List Char) :=
  (cpMatch l).map fun g => (cpRepl g.1 g.2.1 g.2.2.1, g.2.2.2)

/-- `cp_to_native`. -/
def cp_to_native (l : List Char) : List Char :=
  if reSearch cpM l then subAll cpM l else l

/-- Matcher for `p_pattern`: `p\(([^)]+)\)\s+([\w\[\]0-9]+)\s*;`. -/
def pCore (r : List Char) : Option (List Char × List Char × List Char) :=
  let th := r.takeWhile (· != ')')
  let r1 := r.drop th.length
  if th.isEmpty then none else
  if headIs ')' r1 then
    let r2 := r1.tail
    let w := r2.takeWhile wsChar
    if w.isEmpty then none else
    let r3 := r2.drop w.length
    let tq := r3.takeWhile qChar
    if tq.isEmpty then none else
    let r4 := (r3.drop tq.length).dropWhile wsChar
    if headIs ';' r4 then some (th, tq, r4.tail) else none
  else none

def pMatch (l : List Char) : Option (List Char × List Char × List Char) :=
  if lead2 'p' '(' l then pCore (l.drop 2) else none

/-- Replacement of `p_to_native`'s `_sub`: `u(0,0,{theta}) {tgt};`. -/
def pRepl (th tq : List Char) : List Char :=
  strL "u(0,0," ++ th ++ ')' :: ' ' :: tq ++ [';']

def pM (l : List Char) : Option (List Char × List Char) :=
  (pMatch l).map fun g => (pRepl g.1 g.2.1, g.2.2)

/-- `p_to_native`. -/
def p_to_native (l : List Char) : List Char :=
  if reSearch pM l then subAll pM l else l

/-- `re.sub` of a fixed two-character pattern by a single character
(the sign-normalisation substitutions of `convert_line`). -/
def replace2 (a b c : Char) : List Char → List Char
  | [] => []
  | [x] => [x]
  | x :: y :: r =>
    if x = a && y = b then c :: replace2 a b c r
    else x :: replace2 a b c (y :: r)

/-- The four sign-normalisation substitutions of `convert_line`, in source
order: `++`→`+`, `-+`→`-`, `+-`→`-`, `--`→`-`. -/
def signFix (l : List Char) : List Char :=
  replace2 '-' '-' '-'
    (replace2 '+' '-' '-'
      (replace2 '-' '+' '-'
        (replace2 '+' '+' '+' l)))

/-- `convert_line`: cp lowering, then p lowering, then sign normalisation. -/
def convert_line (l : List Char) : List Char :=
  signFix (p_to_native (cp_to_native l))

-- Basic facts about the scanner.

theorem reSub_nil (m : List Char → Option (List Char × List Char)) :
    ∀ f, reSub m f [] = []
  | 0 => rfl
  | _ + 1 => rfl

theorem subAll_head_nil {m : List Char → Option (List Char × List Char)}
    {c : Char} {r rep : List Char} (h : m (c :: r) = some (rep, [])) :
    subAll m (c :: r) = rep := by
  simp [subAll, reSub, h, reSub_nil]

-- Substring predicates used to show that the cp/p patterns cannot match.

/-- Does the two-character string `ab` occur somewhere in the list? -/
def hasPair (a b : Char) : List Char → Bool
  | [] => false
  | x :: r => lead2 a b (x :: r) || hasPair a b r

/-- Does the three-character string `abc` occur somewhere in the list? -/
def hasTriple (a b c : Char) : List Char → Bool
  | [] => false
  | x :: r => lead3 a b c (x :: r) || hasTriple a b c r

/-- Is `c` the last character of the list? -/
def lastIs (c : Char) : List Char → Bool
  | [] => false
  | [x] => x = c
  | _ :: y :: r => lastIs c (y :: r)

/-- Are `a b` the last two characters of the list? -/
def last2Is (a b : Char) : List Char → Bool
  | [x, y] => x = a && y = b
  | _ :: y :: r => last2Is a b (y :: r)
  | _ => false

theorem lead2_append (a b : Char) (x : List Char) (y : List Char) :
    lead2 a b (x ++ y) =
      match x with
      | [] => lead2 a b y
      | [c] => (c = a && headIs b y)
      | _ => lead2 a b x := by
  match x with
  | [] => rfl
  | [c] => cases y <;> simp [lead2, headIs]
  | c :: d :: r => simp [lead2]

theorem hasPair_append (a b : Char) (x y : List Char) :
    hasPair a b (x ++ y) =
      (hasPair a b x || (lastIs a x && headIs b y) || hasPair a b y) := by
  induction x with
  | nil => simp [hasPair, lastIs]
  | cons c r ih =>
    match r with
    | [] =>
      cases y with
      | nil => simp [hasPair, lead2, lastIs, headIs]
      | cons d s => simp [hasPair, lead2, lastIs, headIs]
    | d :: s =>
      have := ih
      simp only [List.cons_append, hasPair, lead2] at *
      rw [this]
      cases s with
      | nil => simp [lastIs, Bool.or_assoc]
      | cons e t => simp [lastIs, Bool.or_assoc]

theorem hasTriple_append (a b c : Char) (x y : List Char) :
    hasTriple a b c (x ++ y) =
      (hasTriple a b c x || (last2Is a b x && headIs c y) ||
        (lastIs a x && lead2 b c y) || hasTriple a b c y) := by
  induction x with
  | nil => simp [hasTriple, last2Is, lastIs]
  | cons x1 r ih =>
    match r with
    | [] =>
      cases y with
      | nil => simp [hasTriple, lead3, last2Is, lastIs, lead2]
      | cons y1 s =>
        cases s with
        | nil => simp [hasTriple, lead3, last2Is, lastIs, lead2]
        | cons y2 t =>
          simp [hasTriple, lead3, last2Is, lastIs, lead2, Bool.and_assoc]
    | x2 :: s =>
      match s with
      | [] =>
        cases y with
        | nil => simp [hasTriple, lead3, last2Is, lastIs, lead2, headIs]
        | cons y1 t =>
          cases t with
          | nil =>
            simp [hasTriple, lead3, last2Is, lastIs, lead2, headIs,
              Bool.or_assoc, Bool.and_assoc]
          | cons y2 u =>
            simp [hasTriple, lead3, last2Is, lastIs, lead2, headIs,
              Bool.or_assoc, Bool.and_assoc]
      | x3 :: t =>
        have := ih
        simp only [List.cons_append, hasTriple, lead3] at *
        rw [this]
        simp [last2Is, lastIs, Bool.or_assoc]

theorem hasPair_right_mem {a b : Char} {l : List Char}
    (h : hasPair a b l = true) : b ∈ l := by
  induction l with
  | nil => simp [hasPair] at h
  | cons x r ih =>
    simp only [hasPair, Bool.or_eq_true] at h
    cases h with
    | inl h =>
      match r, h with
      | y :: s, h =>
        simp only [lead2, Bool.and_eq_true, decide_eq_true_eq] at h
        simp [h.2]
    | inr h => simp [ih h]

theorem hasTriple_third_mem {a b c : Char} {l : List Char}
    (h : hasTriple a b c l = true) : c ∈ l := by
  induction l with
  | nil => simp [hasTriple] at h
  | cons x r ih =>
    simp only [hasTriple, Bool.or_eq_true] at h
    cases h with
    | inl h =>
      match r, h with
      | y :: z :: s, h =>
        simp only [lead3, Bool.and_eq_true, decide_eq_true_eq] at h
        obtain ⟨⟨-, -⟩, h3⟩ := h
        simp [h3]
    | inr h => simp [ih h]

theorem hasPair_of_hasTriple {a b c : Char} {l : List Char}
    (h : hasTriple a b c l = true) : hasPair b c l = true := by
  induction l with
  | nil => simp [hasTriple] at h
  | cons x r ih =>
    simp only [hasTriple, Bool.or_eq_true] at h
    simp only [hasPair, Bool.or_eq_true]
    cases h with
    | inl h =>
      match r, h with
      | y :: z :: s, h =>
        simp only [lead3, Bool.and_eq_true, decide_eq_true_eq] at h
        obtain ⟨⟨-, h2⟩, h3⟩ := h
        right
        simp [hasPair, lead2, h2, h3]
    | inr h => exact Or.inr (ih h)

theorem lastIs_mem {c : Char} {l : List Char} (h : lastIs c l = true) :
    c ∈ l := by
  induction l with
  | nil => simp [lastIs] at h
  | cons x r ih =>
    match r with
    | [] =>
      simp only [lastIs, decide_eq_true_eq] at h
      simp [h]
    | y :: s =>
      simp only [lastIs] at h
      simp [ih h]

theorem headIs_mem {c : Char} {l : List Char} (h : headIs c l = true) :
    c ∈ l := by
  match l with
  | [] => simp [headIs] at h
  | x :: r =>
    simp only [headIs, decide_eq_true_eq] at h
    simp [h]

-- A match of `cp_pattern` starts with the three characters `cp(`, and a
-- match of `p_pattern` starts with the two characters `p(`; hence the
-- searches fail on any line avoiding those substrings.

theorem cpMatch_eq_none {l : List Char}
    (h : lead3 'c' 'p' '(' l = false) : cpMatch l = none := by
  simp [cpMatch, h]

theorem pMatch_eq_none {l : List Char}
    (h : lead2 'p' '(' l = false) : pMatch l = none := by
  simp [pMatch, h]

theorem reSearch_cp_false {l : List Char}
    (h : hasTriple 'c' 'p' '(' l = false) : reSearch cpM l = false := by
  induction l with
  | nil => simp [reSearch, cpM, cpMatch, lead3]
  | cons x r ih =>
    simp only [hasTriple, Bool.or_eq_false_iff] at h
    simp [reSearch, cpM, cpMatch_eq_none h.1, ih h.2]

theorem reSearch_p_false {l : List Char}
    (h : hasPair 'p' '(' l = false) : reSearch pM l = false := by
  induction l with
  | nil => simp [reSearch, pM, pMatch, lead2]
  | cons x r ih =>
    simp only [hasPair, Bool.or_eq_false_iff] at h
    simp [reSearch, pM, pMatch_eq_none h.1, ih h.2]

theorem cp_to_native_id {l : List Char}
    (h : reSearch cpM l = false) : cp_to_native l = l := by
  simp [cp_to_native, h]

theorem p_to_native_id {l : List Char}
    (h : reSearch pM l = false) : p_to_native l = l := by
  simp [p_to_native, h]

theorem replace2_id {a b c : Char} {l : List Char}
    (h : hasPair a b l = false) : replace2 a b c l = l := by
  induction l with
  | nil => rfl
  | cons x r ih =>
    simp only [hasPair, Bool.or_eq_false_iff] at h
    match r, h with
    | [], _ => rfl
    | y :: s, h =>
      have h1 : (x = a && y = b) = false := by
        have := h.1; simpa [lead2] using this
      simp only [replace2, h1, Bool.false_eq_true, if_false]
      rw [ih h.2]

/-- No redundant adjacent sign pair (`++`, `-+`, `+-`, `--`) occurs. -/
def signOk (l : List Char) : Prop :=
  hasPair '+' '+' l = false ∧ hasPair '-' '+' l = false ∧
  hasPair '+' '-' l = false ∧ hasPair '-' '-' l = false

instance (l : List Char) : Decidable (signOk l) := by
  unfold signOk; infer_instance

theorem signFix_id {l : List Char} (h : signOk l) : signFix l = l := by
  obtain ⟨h1, h2, h3, h4⟩ := h
  simp [signFix, replace2_id h1, replace2_id h2, replace2_id h3,
    replace2_id h4]

theorem convert_line_id {l : List Char}
    (hcp : reSearch cpM l = false) (hp : reSearch pM l = false)
    (hs : signOk l) : convert_line l = l := by
  rw [convert_line, cp_to_native_id hcp, p_to_native_id hp, signFix_id hs]


-- takeWhile/dropWhile over symbolic concatenations.

theorem takeWhile_app_stop {p : Char → Bool} {a : List Char} {b0 : Char}
    {b : List Char} (hall : ∀ c ∈ a, p c = true) (hstop : p b0 = false) :
    (a ++ b0 :: b).takeWhile p = a := by
  induction a with
  | nil => simp [List.takeWhile_cons, hstop]
  | cons x r ih =>
    have hx : p x = true := hall x (by simp)
    simp only [List.cons_append, List.takeWhile_cons, hx, if_true]
    rw [ih (fun c hc => hall c (by simp [hc]))]

theorem dropWhile_cons_stop {p : Char → Bool} {c : Char} {r : List Char}
    (h : p c = false) : (c :: r).dropWhile p = c :: r := by
  simp [List.dropWhile_cons, h]

theorem isEmpty_false_of_ne {l : List Char} (h : l ≠ []) :
    l.isEmpty = false := by
  cases l with
  | nil => exact absurd rfl h
  | cons a r => rfl

-- Character class facts.

theorem qChar_not_ws {c : Char} (h : qChar c = true) : wsChar c = false := by
  cases hw : wsChar c
  · rfl
  · exfalso
    simp only [wsChar, Bool.or_eq_true, decide_eq_true_eq] at hw
    rcases hw with ((((h1 | h1) | h1) | h1) | h1) | h1 <;> subst h1 <;>
      exact absurd h (by decide)

theorem qChar_ne {c : Char} (h : qChar c = true) (d : Char)
    (hd : qChar d = false) : c ≠ d := by
  rintro rfl
  rw [h] at hd
  exact absurd hd (by decide)

/-- The match of `p_pattern` on a canonical phase statement `p(θ) t;`. -/
theorem pMatch_canonical (th t : List Char) (hth : th ≠ []) (hp : ')' ∉ th)
    (ht : t ≠ []) (htq : ∀ c ∈ t, qChar c = true) :
    pMatch ('p' :: '(' :: (th ++ ')' :: ' ' :: (t ++ [';']))) =
      some (th, t, []) := by
  obtain ⟨t0, t', rfl⟩ : ∃ t0 t', t = t0 :: t' := by
    cases t with
    | nil => exact absurd rfl ht
    | cons a r => exact ⟨a, r, rfl⟩
  have ht0 : qChar t0 = true := htq t0 (by simp)
  have htake : (th ++ ')' :: ' ' :: t0 :: (t' ++ [';'])).takeWhile
      (fun x => x != ')') = th :=
    takeWhile_app_stop
      (fun c hc => bne_iff_ne.mpr (fun hcc => hp (hcc ▸ hc))) (by decide)
  have hdrop : (th ++ ')' :: ' ' :: t0 :: (t' ++ [';'])).drop th.length
      = ')' :: ' ' :: t0 :: (t' ++ [';']) :=
    List.drop_left th (')' :: ' ' :: t0 :: (t' ++ [';']))
  have hq : (t0 :: (t' ++ [';'])).takeWhile qChar = t0 :: t' := by
    have h1 := @takeWhile_app_stop qChar (t0 :: t') ';' [] htq (by decide)
    simpa using h1
  have hw : (' ' :: (t0 :: (t' ++ [';']))).takeWhile wsChar = [' '] := by
    rw [List.takeWhile_cons, if_pos (by decide), List.takeWhile_cons,
      if_neg (by simp [qChar_not_ws ht0])]
  have hh1 : headIs ')' (')' :: ' ' :: t0 :: (t' ++ [';'])) = true := rfl
  have hdw : List.dropWhile wsChar [';'] = [';'] := rfl
  have hh2 : headIs ';' ([';'] : List Char) = true := rfl
  rw [show pMatch ('p' :: '(' :: (th ++ ')' :: ' ' :: ((t0 :: t') ++ [';'])))
      = pCore (th ++ ')' :: ' ' :: ((t0 :: t') ++ [';'])) from rfl]
  simp only [pCore, List.cons_append, htake, hdrop,
    isEmpty_false_of_ne hth, Bool.false_eq_true, if_false, hh1, if_true,
    List.tail_cons, hw, hq, List.isEmpty_cons, List.length_cons,
    List.length_nil, List.drop_succ_cons, List.drop_zero, List.drop_left,
    hdw, hh2]

/-- The match of `cp_pattern` on a canonical controlled-phase statement
`cp(θ) c,t;`. -/
theorem cpMatch_canonical (th cq tq : List Char) (hth : th ≠ [])
    (hp : ')' ∉ th) (hc : cq ≠ []) (hcq : ∀ c ∈ cq, qChar c = true)
    (ht : tq ≠ []) (htq : ∀ c ∈ tq, qChar c = true) :
    cpMatch ('c' :: 'p' :: '(' ::
        (th ++ ')' :: ' ' :: (cq ++ ',' :: (tq ++ [';'])))) =
      some (th, cq, tq, []) := by
  obtain ⟨c0, c', rfl⟩ : ∃ c0 c', cq = c0 :: c' := by
    cases cq with
    | nil => exact absurd rfl hc
    | cons a r => exact ⟨a, r, rfl⟩
  obtain ⟨t0, t', rfl⟩ : ∃ t0 t', tq = t0 :: t' := by
    cases tq with
    | nil => exact absurd rfl ht
    | cons a r => exact ⟨a, r, rfl⟩
  have hc0 : qChar c0 = true := hcq c0 (by simp)
  have ht0 : qChar t0 = true := htq t0 (by simp)
  have htake : (th ++ ')' :: ' ' :: c0 ::
      (c' ++ ',' :: (t0 :: (t' ++ [';'])))).takeWhile
      (fun x => x != ')') = th :=
    takeWhile_app_stop
      (fun c hcm => bne_iff_ne.mpr (fun hcc => hp (hcc ▸ hcm))) (by decide)
  have hdrop : (th ++ ')' :: ' ' :: c0 ::
      (c' ++ ',' :: (t0 :: (t' ++ [';'])))).drop th.length
      = ')' :: ' ' :: c0 :: (c' ++ ',' :: (t0 :: (t' ++ [';']))) :=
    List.drop_left th _
  have hw : (' ' :: (c0 :: (c' ++ ',' :: (t0 :: (t' ++ [';']))))).takeWhile
      wsChar = [' '] := by
    rw [List.takeWhile_cons, if_pos (by decide), List.takeWhile_cons,
      if_neg (by simp [qChar_not_ws hc0])]
  have hqc : (c0 :: (c' ++ ',' :: (t0 :: (t' ++ [';'])))).takeWhile qChar
      = c0 :: c' := by
    have h1 := @takeWhile_app_stop qChar (c0 :: c') ','
      (t0 :: (t' ++ [';'])) hcq (by decide)
    simpa using h1
  have hdc : (c' ++ ',' :: (t0 :: (t' ++ [';']))).drop c'.length
      = ',' :: (t0 :: (t' ++ [';'])) := List.drop_left c' _
  have hd1 : List.dropWhile wsChar (',' :: (t0 :: (t' ++ [';'])))
      = ',' :: (t0 :: (t' ++ [';'])) := dropWhile_cons_stop (by decide)
  have hh1 : headIs ')' (')' :: ' ' :: c0 ::
      (c' ++ ',' :: (t0 :: (t' ++ [';'])))) = true := rfl
  have hh2 : headIs ',' (',' :: (t0 :: (t' ++ [';']))) = true := rfl
  have hd2 : List.dropWhile wsChar (t0 :: (t' ++ [';']))
      = t0 :: (t' ++ [';']) := dropWhile_cons_stop (qChar_not_ws ht0)
  have hqt : (t0 :: (t' ++ [';'])).takeWhile qChar = t0 :: t' := by
    have h1 := @takeWhile_app_stop qChar (t0 :: t') ';' [] htq (by decide)
    simpa using h1
  have hdw : List.dropWhile wsChar [';'] = [';'] := rfl
  have hh3 : headIs ';' ([';'] : List Char) = true := rfl
  rw [show cpMatch ('c' :: 'p' :: '(' ::
      (th ++ ')' :: ' ' :: ((c0 :: c') ++ ',' :: ((t0 :: t') ++ [';']))))
      = cpCore (th ++ ')' :: ' ' ::
        ((c0 :: c') ++ ',' :: ((t0 :: t') ++ [';']))) from rfl]
  simp only [cpCore, List.cons_append, htake, hdrop,
    isEmpty_false_of_ne hth, Bool.false_eq_true, if_false, hh1, if_true,
    List.tail_cons, hw, hqc, List.isEmpty_cons, List.length_cons,
    List.length_nil, List.drop_succ_cons, List.drop_zero, hdc, hd1, hh2,
    hd2, hqt, List.drop_left, hdw, hh3]

-- Small boundary facts.

theorem headIs_cons (c x : Char) (r : List Char) :
    headIs c (x :: r) = decide (x = c) := rfl

theorem lead2_head_false {a b x : Char} {r : List Char} (h : x ≠ a) :
    lead2 a b (x :: r) = false := by
  match r with
  | [] => rfl
  | y :: s => simp [lead2, h]

theorem lead3_head_false {a b c x : Char} {r : List Char} (h : x ≠ a) :
    lead3 a b c (x :: r) = false := by
  match r with
  | [] => rfl
  | [y] => rfl
  | y :: z :: s => simp [lead3, h]

theorem noTriple_of_noPair {a b c : Char} {l : List Char}
    (h : hasPair b c l = false) : hasTriple a b c l = false := by
  cases ht : hasTriple a b c l
  · rfl
  · rw [hasPair_of_hasTriple ht] at h
    exact absurd h (by decide)

theorem noPair_of_not_mem {a b : Char} {l : List Char} (h : b ∉ l) :
    hasPair a b l = false := by
  cases hp : hasPair a b l
  · rfl
  · exact absurd (hasPair_right_mem hp) h

theorem noTriple_of_not_mem {a b c : Char} {l : List Char} (h : c ∉ l) :
    hasTriple a b c l = false := by
  cases hp : hasTriple a b c l
  · rfl
  · exact absurd (hasTriple_third_mem hp) h

theorem lastIs_false_of_not_mem {c : Char} {l : List Char} (h : c ∉ l) :
    lastIs c l = false := by
  cases hp : lastIs c l
  · rfl
  · exact absurd (lastIs_mem hp) h

theorem headIs_false_of_not_mem {c : Char} {l : List Char} (h : c ∉ l) :
    headIs c l = false := by
  cases hp : headIs c l
  · rfl
  · exact absurd (headIs_mem hp) h

theorem not_mem_of_qChar {l : List Char} (htq : ∀ c ∈ l, qChar c = true)
    {d : Char} (hd : qChar d = false) : d ∉ l := by
  intro hmem
  rw [htq d hmem] at hd
  exact absurd hd (by decide)

theorem signOk_append {x y : List Char} (hx : signOk x) (hy : signOk y)
    (hb : (lastIs '+' x || lastIs '-' x) = false ∨
      (headIs '+' y || headIs '-' y) = false) :
    signOk (x ++ y) := by
  obtain ⟨hx1, hx2, hx3, hx4⟩ := hx
  obtain ⟨hy1, hy2, hy3, hy4⟩ := hy
  have hb' : ∀ a b : Char, a = '+' ∨ a = '-' → b = '+' ∨ b = '-' →
      (lastIs a x && headIs b y) = false := by
    intro a b ha hbb
    cases hb with
    | inl h =>
      have h1 := (Bool.or_eq_false_iff.mp h).1
      have h2 := (Bool.or_eq_false_iff.mp h).2
      rcases ha with rfl | rfl <;> simp [h1, h2]
    | inr h =>
      have h1 := (Bool.or_eq_false_iff.mp h).1
      have h2 := (Bool.or_eq_false_iff.mp h).2
      rcases hbb with rfl | rfl <;> simp [h1, h2]
  refine ⟨?_, ?_, ?_, ?_⟩
  · rw [hasPair_append, hx1, hy1, hb' '+' '+' (Or.inl rfl) (Or.inl rfl)]
    rfl
  · rw [hasPair_append, hx2, hy2, hb' '-' '+' (Or.inr rfl) (Or.inl rfl)]
    rfl
  · rw [hasPair_append, hx3, hy3, hb' '+' '-' (Or.inl rfl) (Or.inr rfl)]
    rfl
  · rw [hasPair_append, hx4, hy4, hb' '-' '-' (Or.inr rfl) (Or.inr rfl)]
    rfl

theorem signOk_of_qChar {l : List Char} (htq : ∀ c ∈ l, qChar c = true) :
    signOk l :=
  ⟨noPair_of_not_mem (not_mem_of_qChar htq (by decide)),
   noPair_of_not_mem (not_mem_of_qChar htq (by decide)),
   noPair_of_not_mem (not_mem_of_qChar htq (by decide)),
   noPair_of_not_mem (not_mem_of_qChar htq (by decide))⟩

theorem signEnds_of_qChar {l : List Char} (htq : ∀ c ∈ l, qChar c = true) :
    (lastIs '+' l || lastIs '-' l) = false ∧
    (headIs '+' l || headIs '-' l) = false := by
  constructor
  · rw [lastIs_false_of_not_mem (not_mem_of_qChar htq (by decide)),
      lastIs_false_of_not_mem (not_mem_of_qChar htq (by decide))]
    rfl
  · rw [headIs_false_of_not_mem (not_mem_of_qChar htq (by decide)),
      headIs_false_of_not_mem (not_mem_of_qChar htq (by decide))]
    rfl

theorem reSearch_cons (m : List Char → Option (List Char × List Char))
    (c : Char) (r : List Char) :
    reSearch m (c :: r) = ((m (c :: r)).isSome || reSearch m r) := rfl

/-- No `cp(` occurrence in a canonical phase statement `p(θ) t;` whose θ
avoids the substring `p(` and whose target is a qubit reference. -/
theorem noCpTriple_p_stmt {th t : List Char}
    (hpp : hasPair 'p' '(' th = false) (htq : ∀ c ∈ t, qChar c = true) :
    hasTriple 'c' 'p' '('
      ('p' :: '(' :: (th ++ ')' :: ' ' :: (t ++ [';']))) = false := by
  have e1 : headIs '(' (')' :: ' ' :: (t ++ [';'])) = false := rfl
  have e2 : lead2 'p' '(' (')' :: ' ' :: (t ++ [';'])) = false := rfl
  have e3 : headIs '(' ([';'] : List Char) = false := rfl
  have e4 : lead2 'p' '(' ([';'] : List Char) = false := rfl
  have e5 : hasTriple 'c' 'p' '(' ([';'] : List Char) = false := rfl
  have e6 : lead3 'c' 'p' '(' ([';'] : List Char) = false := rfl
  simp only [hasTriple, e6, lead3_head_false (show 'p' ≠ 'c' by decide),
    lead3_head_false (show '(' ≠ 'c' by decide),
    lead3_head_false (show ')' ≠ 'c' by decide),
    lead3_head_false (show ' ' ≠ 'c' by decide),
    hasTriple_append, noTriple_of_noPair hpp,
    noTriple_of_not_mem
      (not_mem_of_qChar htq (show qChar '(' = false by decide)),
    e1, e2, e3, e4, e5, Bool.or_false, Bool.false_or, Bool.and_false,
    Bool.false_and]

/-- Sign pairs are absent from the `p_to_native` output when absent from θ
and the target is a qubit reference. -/
theorem signOk_pRepl {th t : List Char} (hs : signOk th)
    (ht : t ≠ []) (htq : ∀ c ∈ t, qChar c = true) :
    signOk (pRepl th t) := by
  obtain ⟨t0, t', rfl⟩ : ∃ t0 t', t = t0 :: t' := by
    cases t with
    | nil => exact absurd rfl ht
    | cons a r => exact ⟨a, r, rfl⟩
  have hr : pRepl th (t0 :: t') =
      (strL "u(0,0," ++ th) ++ (')' :: ' ' :: ((t0 :: t') ++ [';'])) := by
    simp [pRepl, List.append_assoc]
  rw [hr]
  have hmem : ∀ d : Char, qChar d = false → d ≠ ')' → d ≠ ' ' → d ≠ ';' →
      d ∉ (')' :: ' ' :: ((t0 :: t') ++ [';'])) := by
    intro d hd h1 h2 h3 hin
    simp only [List.mem_cons, List.mem_append, List.not_mem_nil,
      or_false] at hin
    rcases hin with h | h | h | h
    · exact h1 h
    · exact h2 h
    · exact not_mem_of_qChar htq hd (List.mem_cons.mpr h)
    · exact h3 h
  have hY : signOk (')' :: ' ' :: ((t0 :: t') ++ [';'])) :=
    ⟨noPair_of_not_mem (hmem '+' (by decide) (by decide) (by decide)
        (by decide)),
     noPair_of_not_mem (hmem '+' (by decide) (by decide) (by decide)
        (by decide)),
     noPair_of_not_mem (hmem '-' (by decide) (by decide) (by decide)
        (by decide)),
     noPair_of_not_mem (hmem '-' (by decide) (by decide) (by decide)
        (by decide))⟩
  refine signOk_append ?_ hY (Or.inr (by rfl))
  exact signOk_append (by decide) hs (Or.inl (by decide))

/-- Claim C6 (confirmed): `convert_line` rewrites a canonical phase
statement `p(θ) t;` to exactly the single statement `u(0,0,θ) t;`, with θ
substituted verbatim.  θ ranges over the texts the pattern can match
(non-empty, no `)`), must not contain a redundant sign pair or the
substring `p(` (which the lowering machinery would rewrite further), and
the target is a non-empty qubit-reference text. -/
theorem C6_p_decomposition (th t : List Char) (hth : th ≠ [])
    (hp : ')' ∉ th) (hpp : hasPair 'p' '(' th = false) (hs : signOk th)
    (ht : t ≠ []) (htq : ∀ c ∈ t, qChar c = true) :
    convert_line ('p' :: '(' :: (th ++ ')' :: ' ' :: (t ++ [';']))) =
      strL "u(0,0," ++ th ++ ')' :: ' ' :: t ++ [';'] := by
  have hcp : cp_to_native ('p' :: '(' :: (th ++ ')' :: ' ' :: (t ++ [';'])))
      = 'p' :: '(' :: (th ++ ')' :: ' ' :: (t ++ [';'])) :=
    cp_to_native_id (reSearch_cp_false (noCpTriple_p_stmt hpp htq))
  have hpm : pM ('p' :: '(' :: (th ++ ')' :: ' ' :: (t ++ [';'])))
      = some (pRepl th t, []) := by
    simp [pM, pMatch_canonical th t hth hp ht htq]
  have hsearch : reSearch pM
      ('p' :: '(' :: (th ++ ')' :: ' ' :: (t ++ [';']))) = true := by
    rw [reSearch_cons, hpm]
    rfl
  have hptn : p_to_native ('p' :: '(' :: (th ++ ')' :: ' ' :: (t ++ [';'])))
      = pRepl th t := by
    rw [p_to_native, if_pos hsearch]
    exact subAll_head_nil hpm
  rw [convert_line, hcp, hptn, signFix_id (signOk_pRepl hs ht htq)]
  rfl

/-- Witness for C6 at `p(x) a;`. -/
theorem C6_p_decomposition_witness :
    convert_line (strL "p(x) a;") = strL "u(0,0,x) a;" := by
  have h := C6_p_decomposition (strL "x") (strL "a") (by decide) (by decide)
    (by decide) (by decide) (by decide) (by decide)
  have e : ('p' :: '(' :: (strL "x" ++ ')' :: ' ' :: (strL "a" ++ [';'])))
      = strL "p(x) a;" := by decide
  have e2 : (strL "u(0,0," ++ strL "x" ++ ')' :: ' ' :: strL "a" ++ [';'])
      = strL "u(0,0,x) a;" := by decide
  rw [e, e2] at h
  exact h

theorem lead2_second_false {a b x y : Char} {r : List Char} (h : y ≠ b) :
    lead2 a b (x :: y :: r) = false := by
  simp [lead2, h]

/-- `cpRepl` written as a flat cons/append chain. -/
theorem cpRepl_norm (th cq tq : List Char) :
    cpRepl th cq tq =
      'u' :: '(' :: '0' :: ',' :: '0' :: ',' :: '(' :: '(' :: (th ++
      ')' :: '/' :: '2' :: ')' :: ')' :: ' ' :: (tq ++
      ';' :: '\n' :: 'c' :: 'x' :: ' ' :: (cq ++
      ',' :: (tq ++
      ';' :: '\n' :: 'u' :: '(' :: '0' :: ',' :: '0' :: ',' :: '-' ::
      '(' :: '(' :: (th ++
      ')' :: '/' :: '2' :: ')' :: ')' :: ' ' :: (tq ++
      ';' :: '\n' :: 'c' :: 'x' :: ' ' :: (cq ++
      ',' :: (tq ++ [';'])))))))) := by
  have hs1 : strL "u(0,0," = ['u', '(', '0', ',', '0', ','] := rfl
  have hs2 : strL "cx " = ['c', 'x', ' '] := rfl
  have hs3 : strL "u(0,0,-" = ['u', '(', '0', ',', '0', ',', '-'] := rfl
  simp [cpRepl, hs1, hs2, hs3, List.append_assoc]

/-- The `p_pattern` search fails on the `cp_to_native` output when θ avoids
the substring `p(` and the qubit references are qubit-reference texts. -/
theorem noPPair_cpRepl {th cq tq : List Char}
    (hpp : hasPair 'p' '(' th = false)
    (hcq : ∀ c ∈ cq, qChar c = true) (htq : ∀ c ∈ tq, qChar c = true) :
    hasPair 'p' '(' (cpRepl th cq tq) = false := by
  have hc : hasPair 'p' '(' cq = false :=
    noPair_of_not_mem (not_mem_of_qChar hcq (by decide))
  have ht : hasPair 'p' '(' tq = false :=
    noPair_of_not_mem (not_mem_of_qChar htq (by decide))
  have e0 : hasPair 'p' '(' ([';'] : List Char) = false := rfl
  rw [cpRepl_norm]
  simp only [hasPair, hasPair_append, hpp, hc, ht, e0, headIs_cons,
    lead2_head_false (show 'u' ≠ 'p' by decide),
    lead2_head_false (show '(' ≠ 'p' by decide),
    lead2_head_false (show '0' ≠ 'p' by decide),
    lead2_head_false (show ',' ≠ 'p' by decide),
    lead2_head_false (show '-' ≠ 'p' by decide),
    lead2_head_false (show '/' ≠ 'p' by decide),
    lead2_head_false (show '2' ≠ 'p' by decide),
    lead2_head_false (show ')' ≠ 'p' by decide),
    lead2_head_false (show ' ' ≠ 'p' by decide),
    lead2_head_false (show ';' ≠ 'p' by decide),
    lead2_head_false (show '\n' ≠ 'p' by decide),
    lead2_head_false (show 'c' ≠ 'p' by decide),
    lead2_head_false (show 'x' ≠ 'p' by decide),
    Bool.false_or, Bool.or_false, Bool.and_false, Bool.false_and]
  simp

/-- Sign pairs are absent from the `cp_to_native` output when absent from θ
and the qubit references are qubit-reference texts. -/
theorem signOk_cpRepl {th cq tq : List Char} (hs : signOk th)
    (hcq : ∀ c ∈ cq, qChar c = true) (htq : ∀ c ∈ tq, qChar c = true) :
    signOk (cpRepl th cq tq) := by
  obtain ⟨h1, h2, h3, h4⟩ := hs
  have hcp : hasPair '+' '+' cq = false :=
    noPair_of_not_mem (not_mem_of_qChar hcq (by decide))
  have hcp2 : hasPair '-' '+' cq = false :=
    noPair_of_not_mem (not_mem_of_qChar hcq (by decide))
  have hcp3 : hasPair '+' '-' cq = false :=
    noPair_of_not_mem (not_mem_of_qChar hcq (by decide))
  have hcp4 : hasPair '-' '-' cq = false :=
    noPair_of_not_mem (not_mem_of_qChar hcq (by decide))
  have htp : hasPair '+' '+' tq = false :=
    noPair_of_not_mem (not_mem_of_qChar htq (by decide))
  have htp2 : hasPair '-' '+' tq = false :=
    noPair_of_not_mem (not_mem_of_qChar htq (by decide))
  have htp3 : hasPair '+' '-' tq = false :=
    noPair_of_not_mem (not_mem_of_qChar htq (by decide))
  have htp4 : hasPair '-' '-' tq = false :=
    noPair_of_not_mem (not_mem_of_qChar htq (by decide))
  refine ⟨?_, ?_, ?_, ?_⟩ <;> rw [cpRepl_norm] <;>
    simp only [hasPair, hasPair_append, h1, h2, h3, h4, hcp, hcp2, hcp3,
      hcp4, htp, htp2, htp3, htp4, headIs_cons,
      lead2_head_false (show 'u' ≠ '+' by decide),
      lead2_head_false (show '(' ≠ '+' by decide),
      lead2_head_false (show '0' ≠ '+' by decide),
      lead2_head_false (show ',' ≠ '+' by decide),
      lead2_head_false (show '/' ≠ '+' by decide),
      lead2_head_false (show '2' ≠ '+' by decide),
      lead2_head_false (show ')' ≠ '+' by decide),
      lead2_head_false (show ' ' ≠ '+' by decide),
      lead2_head_false (show ';' ≠ '+' by decide),
      lead2_head_false (show '\n' ≠ '+' by decide),
      lead2_head_false (show 'c' ≠ '+' by decide),
      lead2_head_false (show 'x' ≠ '+' by decide),
      lead2_head_false (show 'u' ≠ '-' by decide),
      lead2_head_false (show '(' ≠ '-' by decide),
      lead2_head_false (show '0' ≠ '-' by decide),
      lead2_head_false (show ',' ≠ '-' by decide),
      lead2_head_false (show '/' ≠ '-' by decide),
      lead2_head_false (show '2' ≠ '-' by decide),
      lead2_head_false (show ')' ≠ '-' by decide),
      lead2_head_false (show ' ' ≠ '-' by decide),
      lead2_head_false (show ';' ≠ '-' by decide),
      lead2_head_false (show '\n' ≠ '-' by decide),
      lead2_head_false (show 'c' ≠ '-' by decide),
      lead2_head_false (show 'x' ≠ '-' by decide),
      lead2_second_false (show '(' ≠ '+' by decide),
      lead2_second_false (show '(' ≠ '-' by decide),
      Bool.false_or, Bool.or_false, Bool.and_false, Bool.false_and] <;>
    simp

/-- Claim C1 (amended): `convert_line` rewrites a canonical controlled-phase
statement `cp(θ) c,t;` to exactly the four statements
`u(0,0,((θ)/2)) t;`, `cx c,t;`, `u(0,0,-((θ)/2)) t;`, `cx c,t;` — note the
doubled parentheses around θ, since the source builds `half = (({θ})/2)` —
with θ substituted verbatim.  θ ranges over the texts the pattern can match
(non-empty, no `)`), must not contain a redundant sign pair or the
substring `p(`, and the qubit references are non-empty qubit-reference
texts. -/
theorem C1_cp_decomposition (th cq tq : List Char) (hth : th ≠ [])
    (hp : ')' ∉ th) (hpp : hasPair 'p' '(' th = false) (hs : signOk th)
    (hc : cq ≠ []) (hcq : ∀ c ∈ cq, qChar c = true)
    (ht : tq ≠ []) (htq : ∀ c ∈ tq, qChar c = true) :
    convert_line ('c' :: 'p' :: '(' ::
        (th ++ ')' :: ' ' :: (cq ++ ',' :: (tq ++ [';'])))) =
      strL "u(0,0,((" ++ th ++ strL ")/2)) " ++ tq ++ strL ";\ncx " ++
        cq ++ ',' :: tq ++ strL ";\nu(0,0,-((" ++ th ++ strL ")/2)) " ++
        tq ++ strL ";\ncx " ++ cq ++ ',' :: tq ++ [';'] := by
  have hexp : strL "u(0,0,((" ++ th ++ strL ")/2)) " ++ tq ++ strL ";\ncx "
      ++ cq ++ ',' :: tq ++ strL ";\nu(0,0,-((" ++ th ++ strL ")/2)) " ++
      tq ++ strL ";\ncx " ++ cq ++ ',' :: tq ++ [';'] = cpRepl th cq tq := by
    have ha : strL "u(0,0,((" = ['u','(','0',',','0',',','(','('] := rfl
    have hb : strL ")/2)) " = [')','/','2',')',')',' '] := rfl
    have hcx : strL ";\ncx " = [';','\n','c','x',' '] := rfl
    have hd : strL ";\nu(0,0,-((" =
      [';','\n','u','(','0',',','0',',','-','(','('] := rfl
    rw [cpRepl_norm]
    simp [ha, hb, hcx, hd, List.append_assoc]
  have hm : cpMatch ('c' :: 'p' :: '(' ::
      (th ++ ')' :: ' ' :: (cq ++ ',' :: (tq ++ [';'])))) =
      some (th, cq, tq, []) :=
    cpMatch_canonical th cq tq hth hp hc hcq ht htq
  have hM : cpM ('c' :: 'p' :: '(' ::
      (th ++ ')' :: ' ' :: (cq ++ ',' :: (tq ++ [';'])))) =
      some (cpRepl th cq tq, []) := by
    simp [cpM, hm]
  have hsearch : reSearch cpM ('c' :: 'p' :: '(' ::
      (th ++ ')' :: ' ' :: (cq ++ ',' :: (tq ++ [';'])))) = true := by
    rw [reSearch_cons, hM]
    rfl
  have hcpn : cp_to_native ('c' :: 'p' :: '(' ::
      (th ++ ')' :: ' ' :: (cq ++ ',' :: (tq ++ [';'])))) =
      cpRepl th cq tq := by
    rw [cp_to_native, if_pos hsearch]
    exact subAll_head_nil hM
  have hpn : p_to_native (cpRepl th cq tq) = cpRepl th cq tq :=
    p_to_native_id (reSearch_p_false (noPPair_cpRepl hpp hcq htq))
  rw [convert_line, hcpn, hpn, signFix_id (signOk_cpRepl hs hcq htq)]
  exact hexp.symm

/-- Witness for the amended C1 at `cp(x) a,b;`. -/
theorem C1_cp_decomposition_witness :
    convert_line (strL "cp(x) a,b;") =
      strL "u(0,0,((x)/2)) b;\ncx a,b;\nu(0,0,-((x)/2)) b;\ncx a,b;" := by
  have h := C1_cp_decomposition (strL "x") (strL "a") (strL "b")
    (by decide) (by decide) (by decide) (by decide) (by decide) (by decide)
    (by decide) (by decide)
  have e : ('c' :: 'p' :: '(' :: (strL "x" ++ ')' :: ' ' ::
      (strL "a" ++ ',' :: (strL "b" ++ [';'])))) = strL "cp(x) a,b;" := by
    decide
  have e2 : strL "u(0,0,((" ++ strL "x" ++ strL ")/2)) " ++ strL "b" ++
      strL ";\ncx " ++ strL "a" ++ ',' :: strL "b" ++ strL ";\nu(0,0,-((" ++
      strL "x" ++ strL ")/2)) " ++ strL "b" ++ strL ";\ncx " ++ strL "a" ++
      ',' :: strL "b" ++ [';'] =
      strL "u(0,0,((x)/2)) b;\ncx a,b;\nu(0,0,-((x)/2)) b;\ncx a,b;" := by
    decide
  rw [e, e2] at h
  exact h

/-- Counterexample to C1 as stated: on `cp(x) a,b;` the lowering emits
half-angle expressions `((x)/2)` with doubled parentheses, not `(x)/2`. -/
theorem C1_counterexample :
    convert_line (strL "cp(x) a,b;") ≠
      strL "u(0,0,(x)/2) b;\ncx a,b;\nu(0,0,-(x)/2) b;\ncx a,b;" := by
  decide

/-- Counterexample to C3 as stated: the line `exp(0.5) a;` is neither of
the form `p(θ) t;` nor of the form `cp(θ) c,t;` (wrong head) and contains
no adjacent sign pair, yet `convert_line` rewrites it, because `p_pattern`
matches the substring `p(0.5) a;` inside `exp(`. -/
theorem C3_counterexample :
    (∀ th t : List Char,
      strL "exp(0.5) a;" ≠ 'p' :: '(' :: (th ++ ')' :: ' ' :: (t ++ [';'])))
    ∧ (∀ th cq tq : List Char, strL "exp(0.5) a;" ≠ 'c' :: 'p' :: '(' ::
        (th ++ ')' :: ' ' :: (cq ++ ',' :: (tq ++ [';']))))
    ∧ signOk (strL "exp(0.5) a;")
    ∧ convert_line (strL "exp(0.5) a;") = strL "exu(0,0,0.5) a;"
    ∧ convert_line (strL "exp(0.5) a;") ≠ strL "exp(0.5) a;" := by
  refine ⟨?_, ?_, by decide, by decide, by decide⟩
  · intro th t h
    rw [show strL "exp(0.5) a;" = 'e' :: strL "xp(0.5) a;" from rfl] at h
    exact absurd (List.cons_eq_cons.mp h).1 (by decide)
  · intro th cq tq h
    rw [show strL "exp(0.5) a;" = 'e' :: strL "xp(0.5) a;" from rfl] at h
    exact absurd (List.cons_eq_cons.mp h).1 (by decide)

/-- Claim C3 (amended): a line on which `cp_pattern` and `p_pattern` find
no match at any position (rather than merely not being a whole cp/p
statement) and which contains no redundant adjacent sign pair is returned
unchanged by `convert_line`. -/
theorem C3_no_op (l : List Char) (hcp : reSearch cpM l = false)
    (hp : reSearch pM l = false) (hs : signOk l) : convert_line l = l :=
  convert_line_id hcp hp hs

/-- Witness for the amended C3 at `h q[0];`. -/
theorem C3_no_op_witness : convert_line (strL "h q[0];") = strL "h q[0];" :=
  C3_no_op (strL "h q[0];") (by decide) (by decide) (by decide)

/-- No `p(` pair occurs in a native `u(θ1,θ2,θ3) q;` statement whose
parameter texts avoid the substring `p(`. -/
theorem noPPair_u_stmt {th1 th2 th3 q : List Char}
    (h1 : hasPair 'p' '(' th1 = false) (h2 : hasPair 'p' '(' th2 = false)
    (h3 : hasPair 'p' '(' th3 = false) (hq : ∀ c ∈ q, qChar c = true) :
    hasPair 'p' '('
      ('u' :: '(' :: (th1 ++ ',' :: (th2 ++ ',' :: (th3 ++
        ')' :: ' ' :: (q ++ [';']))))) = false := by
  have hqn : hasPair 'p' '(' q = false :=
    noPair_of_not_mem (not_mem_of_qChar hq (by decide))
  have e0 : hasPair 'p' '(' ([';'] : List Char) = false := rfl
  have eL : lead2 'p' '(' ([';'] : List Char) = false := rfl
  simp only [eL, hasPair, hasPair_append, h1, h2, h3, hqn, e0, headIs_cons,
    lead2_head_false (show 'u' ≠ 'p' by decide),
    lead2_head_false (show '(' ≠ 'p' by decide),
    lead2_head_false (show ',' ≠ 'p' by decide),
    lead2_head_false (show ')' ≠ 'p' by decide),
    lead2_head_false (show ' ' ≠ 'p' by decide),
    Bool.false_or, Bool.or_false, Bool.and_false, Bool.false_and]
  simp

/-- Sign pairs are absent from a native `u(θ1,θ2,θ3) q;` statement whose
parameter texts contain none. -/
theorem signOk_u_stmt {th1 th2 th3 q : List Char}
    (hs1 : signOk th1) (hs2 : signOk th2) (hs3 : signOk th3)
    (hq : ∀ c ∈ q, qChar c = true) :
    signOk ('u' :: '(' :: (th1 ++ ',' :: (th2 ++ ',' :: (th3 ++
      ')' :: ' ' :: (q ++ [';']))))) := by
  obtain ⟨a1, a2, a3, a4⟩ := hs1
  obtain ⟨b1, b2, b3, b4⟩ := hs2
  obtain ⟨c1, c2, c3, c4⟩ := hs3
  have q1 : hasPair '+' '+' q = false :=
    noPair_of_not_mem (not_mem_of_qChar hq (by decide))
  have q2 : hasPair '-' '+' q = false :=
    noPair_of_not_mem (not_mem_of_qChar hq (by decide))
  have q3 : hasPair '+' '-' q = false :=
    noPair_of_not_mem (not_mem_of_qChar hq (by decide))
  have q4 : hasPair '-' '-' q = false :=
    noPair_of_not_mem (not_mem_of_qChar hq (by decide))
  have eL : ∀ a b : Char, lead2 a b ([';'] : List Char) = false :=
    fun a b => rfl
  refine ⟨?_, ?_, ?_, ?_⟩ <;>
    simp only [eL, hasPair, hasPair_append, a1, a2, a3, a4, b1, b2, b3, b4,
      c1, c2, c3, c4, q1, q2, q3, q4, headIs_cons,
      lead2_head_false (show 'u' ≠ '+' by decide),
      lead2_head_false (show '(' ≠ '+' by decide),
      lead2_head_false (show ',' ≠ '+' by decide),
      lead2_head_false (show ')' ≠ '+' by decide),
      lead2_head_false (show ' ' ≠ '+' by decide),
      lead2_head_false (show 'u' ≠ '-' by decide),
      lead2_head_false (show '(' ≠ '-' by decide),
      lead2_head_false (show ',' ≠ '-' by decide),
      lead2_head_false (show ')' ≠ '-' by decide),
      lead2_head_false (show ' ' ≠ '-' by decide),
      Bool.false_or, Bool.or_false, Bool.and_false, Bool.false_and] <;>
    simp

/-- Claim C9 (confirmed): GateLowering is the identity on statements
already in native form, both `u(θ1,θ2,θ3) q;` and `cx c,t;`, provided the
parameter texts contain no `p(` substring and no redundant sign pair and
the qubit references are qubit-reference texts. -/
theorem C9_native_idempotent :
    (∀ th1 th2 th3 q : List Char,
      hasPair 'p' '(' th1 = false → hasPair 'p' '(' th2 = false →
      hasPair 'p' '(' th3 = false → signOk th1 → signOk th2 → signOk th3 →
      (∀ c ∈ q, qChar c = true) →
      convert_line ('u' :: '(' :: (th1 ++ ',' :: (th2 ++ ',' :: (th3 ++
        ')' :: ' ' :: (q ++ [';']))))) =
        'u' :: '(' :: (th1 ++ ',' :: (th2 ++ ',' :: (th3 ++
        ')' :: ' ' :: (q ++ [';'])))))
    ∧ (∀ cq tq : List Char, (∀ c ∈ cq, qChar c = true) →
      (∀ c ∈ tq, qChar c = true) →
      convert_line ('c' :: 'x' :: ' ' :: (cq ++ ',' :: (tq ++ [';']))) =
        'c' :: 'x' :: ' ' :: (cq ++ ',' :: (tq ++ [';']))) := by
  constructor
  · intro th1 th2 th3 q h1 h2 h3 hs1 hs2 hs3 hq
    have hnp := noPPair_u_stmt h1 h2 h3 hq
    exact convert_line_id
      (reSearch_cp_false (noTriple_of_noPair hnp))
      (reSearch_p_false hnp)
      (signOk_u_stmt hs1 hs2 hs3 hq)
  · intro cq tq hcq htq
    have hmem : ∀ d : Char, qChar d = false → d ≠ 'c' → d ≠ 'x' →
        d ≠ ' ' → d ≠ ',' → d ≠ ';' →
        d ∉ ('c' :: 'x' :: ' ' :: (cq ++ ',' :: (tq ++ [';']))) := by
      intro d hd e1 e2 e3 e4 e5 hin
      simp only [List.mem_cons, List.mem_append, List.not_mem_nil,
        or_false] at hin
      rcases hin with h | h | h | h | h | h | h
      · exact e1 h
      · exact e2 h
      · exact e3 h
      · exact not_mem_of_qChar hcq hd h
      · exact e4 h
      · exact not_mem_of_qChar htq hd h
      · exact e5 h
    have hnp : hasPair 'p' '('
        ('c' :: 'x' :: ' ' :: (cq ++ ',' :: (tq ++ [';']))) = false :=
      noPair_of_not_mem (hmem '(' (by decide) (by decide) (by decide)
        (by decide) (by decide) (by decide))
    have hsn : signOk ('c' :: 'x' :: ' ' :: (cq ++ ',' :: (tq ++ [';']))) :=
      ⟨noPair_of_not_mem (hmem '+' (by decide) (by decide) (by decide)
          (by decide) (by decide) (by decide)),
       noPair_of_not_mem (hmem '+' (by decide) (by decide) (by decide)
          (by decide) (by decide) (by decide)),
       noPair_of_not_mem (hmem '-' (by decide) (by decide) (by decide)
          (by decide) (by decide) (by decide)),
       noPair_of_not_mem (hmem '-' (by decide) (by decide) (by decide)
          (by decide) (by decide) (by decide))⟩
    exact convert_line_id
      (reSearch_cp_false (noTriple_of_noPair hnp))
      (reSearch_p_false hnp) hsn

/-- Witness for C9: the native statements `u(0,0,pi/4) q[1];` and
`cx a,b;` are fixed points of `convert_line`. -/
theorem C9_native_idempotent_witness :
    convert_line (strL "u(0,0,pi/4) q[1];") = strL "u(0,0,pi/4) q[1];" ∧
    convert_line (strL "cx a,b;") = strL "cx a,b;" := by
  constructor
  · have h := C9_native_idempotent.1 (strL "0") (strL "0") (strL "pi/4")
      (strL "q[1]") (by decide) (by decide) (by decide) (by decide)
      (by decide) (by decide) (by decide)
    have e : ('u' :: '(' :: (strL "0" ++ ',' :: (strL "0" ++ ',' ::
        (strL "pi/4" ++ ')' :: ' ' :: (strL "q[1]" ++ [';']))))) =
        strL "u(0,0,pi/4) q[1];" := by decide
    rw [e] at h
    exact h
  · have h := C9_native_idempotent.2 (strL "a") (strL "b")
      (by decide) (by decide)
    have e : ('c' :: 'x' :: ' ' :: (strL "a" ++ ',' :: (strL "b" ++ [';'])))
        = strL "cx a,b;" := by decide
    rw [e] at h
    exact h

-- ---------------------------------------------------------------------------
-- The macro expander: `call_pat`, substitution maps, `expand_once`.
-- ---------------------------------------------------------------------------

/-- The tail of `call_pat` after the head word:
`\s*(\([^)]*\))?\s*([\w\[\]0-9_,\s]+);\s*$` of
`^\s*(\w+)\s*(\([^)]*\))?\s*([\w\[\]0-9_,\s]+);\s*$`.
Returns group 2 (with its parentheses) when present, and group 3.
When the group-3 class would otherwise be empty the engine backtracks one
whitespace character out of the greedy `\s*` into the group. -/
def callRest (t : List Char) : Option (List Char) :=
  let w := t.takeWhile wsChar
  let t1 := t.dropWhile wsChar
  let g := t1.takeWhile callChar
  if g.isEmpty then
    match w.getLast?, t1 with
    | some c, ';' :: r => if r.all wsChar then some [c] else none
    | _, _ => none
  else
    match t1.drop g.length with
    | ';' :: r => if r.all wsChar then some g else none
    | _ => none

def callTail (t : List Char) :
    Option (Option (List Char) × List Char) :=
  let t1 := t.dropWhile wsChar
  if headIs '(' t1 then
    let inside := t1.tail.takeWhile (· != ')')
    let r2 := t1.tail.drop inside.length
    if headIs ')' r2 then
      (callRest r2.tail).map fun g3 => (some ('(' :: inside ++ [')']), g3)
    else none
  else (callRest t).map fun g3 => (none, g3)

/-- Backtracking over the greedy head group `(\w+)`: try the longest word
first, then move characters from the end of the word back into the rest. -/
def headsGo : List Char → List Char →
    Option (List Char × Option (List Char) × List Char)
  | [], _ => none
  | c :: wr, rest =>
    match callTail rest with
    | some (g2, g3) => some ((c :: wr).reverse, g2, g3)
    | none => headsGo wr (c :: rest)

/-- `call_pat.match(line)`, returning the groups (head, optional
parenthesized arguments, qubit list text). -/
def callMatch (l : List Char) :
    Option (List Char × Option (List Char) × List Char) :=
  let t0 := l.dropWhile wsChar
  let w := t0.takeWhile wordChar
  if w.isEmpty then none else headsGo w.reverse (t0.drop w.length)

/-- A parsed `gate` definition: formal parameters, formal qubits, body. -/
structure GateDef where
  params : List (List Char)
  qubits : List (List Char)
  body : List (List Char)
deriving DecidableEq

/-- The insertion-ordered definition mapping `gate_defs`. -/
abbrev Defs := List (List Char × GateDef)

/-- Dictionary lookup. -/
def lookupD (defs : Defs) (n : List Char) : Option GateDef :=
  match List.find? (fun p => p.1 == n) defs with
  | some p => some p.2
  | none => none

/-- Python `str.split(',')` (always at least one piece). -/
def splitComma : List Char → List (List Char)
  | [] => [[]]
  | c :: r =>
    match splitComma r with
    | [] => [[c]]
    | s :: ss => if c = ',' then [] :: s :: ss else (c :: s) :: ss

/-- Python `str.strip()`. -/
def strip (l : List Char) : List Char :=
  ((l.dropWhile wsChar).reverse.dropWhile wsChar).reverse

/-- Dictionary insert-or-update, as used when building `dict(zip(...))`. -/
def insMap (m : List (List Char × List Char)) (k v : List Char) :
    List (List Char × List Char) :=
  if m.any (fun p => p.1 == k) then
    m.map (fun p => if p.1 == k then (k, v) else p)
  else m ++ [(k, v)]

/-- `dict(zip(formals, actuals))`: positional pairing, excess actuals
dropped, unmatched formals absent. -/
def mkMap (fs as : List (List Char)) : List (List Char × List Char) :=
  (fs.zip as).foldl (fun acc p => insMap acc p.1 p.2) []

/-- One Python `\b` boundary between two adjacent characters (`none` is an
end of the string): exactly one side is a word character. -/
def wordB (x y : Option Char) : Bool :=
  (match x with | some c => wordChar c | none => false) !=
  (match y with | some c => wordChar c | none => false)

/-- `re.sub(rf'\b{re.escape(fp)}\b', ap, line)` with fuel, tracking the
character before the scan position for the left boundary.  (An empty
formal symbol — possible only from an empty `()` parameter list — is not
modelled; the matcher then never fires.) -/
def wbGo (fp ap : List Char) : Option Char → Nat → List Char → List Char
  | _, 0, l => l
  | _, _ + 1, [] => []
  | prev, f + 1, c :: r =>
    if !fp.isEmpty && fp.isPrefixOf (c :: r) && wordB prev (some c) &&
        wordB fp.getLast? ((c :: r).drop fp.length).head? then
      ap ++ wbGo fp ap fp.getLast? f ((c :: r).drop fp.length)
    else c :: wbGo fp ap (some c) f r

def wbSub (fp ap l : List Char) : List Char :=
  wbGo fp ap none l.length l

/-- Apply a substitution map entry by entry, in insertion order. -/
def applyMap (m : List (List Char × List Char)) (l : List Char) :
    List Char :=
  m.foldl (fun acc p => wbSub p.1 p.2 acc) l

/-- One statement of `expand_once`'s loop body: either pass the line
through `convert_line`, or inline the gate body with parameter and qubit
substitution (in that order), lowering each emitted line. -/
def expand_line (defs : Defs) (ln : List Char) :
    List (List Char) × Bool :=
  match callMatch ln with
  | none => ([convert_line ln], false)
  | some (g, arg?, qubStr) =>
    match lookupD defs g with
    | none => ([convert_line ln], false)
    | some gd =>
      let actualP := match arg? with
        | none => []
        | some a => (splitComma (a.drop 1).dropLast).map strip
      let pm := mkMap gd.params actualP
      let actualQ := (splitComma qubStr).map strip
      let qm := mkMap gd.qubits actualQ
      (gd.body.map fun b => convert_line (applyMap qm (applyMap pm b)),
        true)

/-- `expand_once`. -/
def expand_once (defs : Defs) : List (List Char) →
    List (List Char) × Bool
  | [] => ([], false)
  | ln :: rest =>
    let h := expand_line defs ln
    let t := expand_once defs rest
    (h.1 ++ t.1, h.2 || t.2)

/-- The driver loop `while changed: body, changed = expand_once(body)`,
with fuel; `none` means the fuel ran out before a pass reported no
change. -/
def expandLoop (defs : Defs) : Nat → List (List Char) →
    Option (List (List Char))
  | 0, _ => none
  | f + 1, b =>
    let r := expand_once defs b
    if r.2 then expandLoop defs f r.1 else some r.1

/-- Does the line fully match the invocation grammar with a head that is a
key of the definition mapping (the condition under which `expand_once`
expands it)? -/
def isExpandable (defs : Defs) (ln : List Char) : Bool :=
  match callMatch ln with
  | none => false
  | some (g, _, _) => (lookupD defs g).isSome

/-- The static macro-reference list of a definition: head identifiers of
its body statements that are keys of the mapping. -/
def refHeads (defs : Defs) (n : List Char) : List (List Char) :=
  match lookupD defs n with
  | none => []
  | some gd =>
    (gd.body.filterMap (fun b => (callMatch b).map (·.1))).filter
      (fun h => (lookupD defs h).isSome)

theorem expand_line_flag (defs : Defs) (ln : List Char) :
    (expand_line defs ln).2 = isExpandable defs ln := by
  rw [expand_line, isExpandable]
  cases h : callMatch ln with
  | none => rfl
  | some g =>
    obtain ⟨g1, g2, g3⟩ := g
    cases hl : lookupD defs g1 with
    | none => simp [hl]
    | some gd => simp [hl]

/-- Claim C2 (amended): a pass of `expand_once` reports no change exactly
when no statement of its input fully matches the invocation grammar with a
head identifier that is a key of the definition mapping. -/
theorem C2_no_change_iff (defs : Defs) (lns : List (List Char)) :
    (expand_once defs lns).2 = false ↔
      ∀ l ∈ lns, isExpandable defs l = false := by
  induction lns with
  | nil => simp [expand_once]
  | cons ln rest ih =>
    simp only [expand_once, Bool.or_eq_false_iff, List.mem_cons]
    constructor
    · rintro ⟨h1, h2⟩ l hl
      rcases hl with rfl | hl
      · rw [← expand_line_flag defs l]
        exact h1
      · exact ih.mp h2 l hl
    · intro h
      refine ⟨?_, ih.mpr (fun l hl => h l (Or.inr hl))⟩
      rw [expand_line_flag defs ln]
      exact h ln (Or.inl rfl)

/-- The cyclic-by-substitution mapping: `gate g a { a a; }`. -/
def defsLoop : Defs := [(strL "g", ⟨[], [strL "a"], [strL "a a;"]⟩)]

theorem expandLoop_defsLoop_none :
    ∀ k, expandLoop defsLoop k [strL "g g;"] = none := by
  intro k
  induction k with
  | zero => rfl
  | succ k ih =>
    have hfix : expand_once defsLoop [strL "g g;"] =
        ([strL "g g;"], true) := by decide
    rw [expandLoop, hfix]
    simpa using ih

/-- Counterexample to C2 as stated: the mapping `gate g a { a a; }` has an
empty (hence finite and acyclic) static macro-reference graph, yet on the
program `g g;` every pass expands (substituting the actual qubit text `g`
reintroduces the invocation), so the repeated application of `expand_once`
never reaches a pass that changes nothing. -/
theorem C2_counterexample :
    refHeads defsLoop (strL "g") = [] ∧
    expand_once defsLoop [strL "g g;"] = ([strL "g g;"], true) ∧
    ¬ ∃ r k, expandLoop defsLoop k [strL "g g;"] = some r := by
  refine ⟨by decide, by decide, ?_⟩
  rintro ⟨r, k, h⟩
  rw [expandLoop_defsLoop_none k] at h
  exact Option.noConfusion h

theorem insMap_not_mem {m : List (List Char × List Char)}
    {k v : List Char} (h : m.any (fun p => p.1 == k) = false) :
    insMap m k v = m ++ [(k, v)] := by
  rw [insMap, if_neg]
  simp [h]

theorem zip_map_fst_take :
    ∀ (fs as : List (List Char)),
      (fs.zip as).map Prod.fst = fs.take (min fs.length as.length)
  | [], _ => by simp
  | _ :: _, [] => by simp
  | f :: fs, a :: as => by
    simp only [List.zip_cons_cons, List.map_cons, List.length_cons]
    rw [zip_map_fst_take fs as]
    simp [Nat.succ_min_succ]

theorem mkMap_foldl {ps m : List (List Char × List Char)}
    (h : ∀ p ∈ ps, m.any (fun q => q.1 == p.1) = false)
    (h2 : (ps.map Prod.fst).Nodup) :
    ps.foldl (fun acc p => insMap acc p.1 p.2) m = m ++ ps := by
  induction ps generalizing m with
  | nil => simp
  | cons p ps ih =>
    simp only [List.map_cons, List.nodup_cons] at h2
    rw [List.foldl_cons, insMap_not_mem (h p (by simp))]
    rw [ih ?_ h2.2]
    · simp
    · intro q hq
      have hm := h q (List.mem_cons_of_mem p hq)
      have hkq : (p.1 == q.1) = false := by
        have : q.1 ∈ ps.map Prod.fst := List.mem_map_of_mem Prod.fst hq
        have hne : p.1 ≠ q.1 := fun he => h2.1 (he ▸ this)
        simp [hne]
      simp [List.any_append, hm, hkq]

theorem mkMap_eq_zip {fs as : List (List Char)} (h : fs.Nodup) :
    mkMap fs as = fs.zip as := by
  rw [mkMap, mkMap_foldl (by simp)]
  · simp
  · rw [zip_map_fst_take]
    exact (List.take_sublist _ _).nodup h

/-- Claim C5 (confirmed): arity mismatches do not fail.  The substitution
map pairs formals and actuals positionally: its keys are exactly the first
`min |formals| |actuals|` formals, so excess actuals are dropped and
unmatched formals receive no substitution.  Concretely, invoking the
two-parameter macro `foo(a,b) q { p(a+b) q; }` with one actual leaves the
literal `b` in the expanded body, and invoking the one-parameter macro
`bar(a) t { p(a) t; }` with two actuals drops the second. -/
theorem C5_arity_mismatch :
    (∀ fs as : List (List Char), fs.Nodup →
      (mkMap fs as).map Prod.fst = fs.take (min fs.length as.length))
    ∧ expand_once [(strL "foo", ⟨[strL "a", strL "b"], [strL "q"],
        [strL "p(a+b) q;"]⟩)] [strL "foo(0.5) q[0];"] =
      ([strL "u(0,0,0.5+b) q[0];"], true)
    ∧ expand_once [(strL "bar", ⟨[strL "a"], [strL "t"],
        [strL "p(a) t;"]⟩)] [strL "bar(1,2) x;"] =
      ([strL "u(0,0,1) x;"], true) := by
  refine ⟨?_, by decide, by decide⟩
  intro fs as h
  rw [mkMap_eq_zip h, zip_map_fst_take]

/-- Witness for C5's universal part at formals `[a, b]`, actuals
`[0.5]`. -/
theorem C5_arity_mismatch_witness :
    (mkMap [strL "a", strL "b"] [strL "0.5"]).map Prod.fst =
      [strL "a", strL "b"].take
        (min [strL "a", strL "b"].length [strL "0.5"].length) :=
  C5_arity_mismatch.1 [strL "a", strL "b"] [strL "0.5"] (by decide)

/-- Claim C10 (confirmed): substitution is sequential, one formal at a
time in map order, not simultaneous: with formal qubits `a,b` invoked with
actuals `b,a`, the second substitution rewrites the text introduced by the
first, and both formals end up mapped to `a` instead of being
exchanged. -/
theorem C10_sequential_swap :
    applyMap (mkMap [strL "a", strL "b"] [strL "b", strL "a"])
        (strL "cx a,b;") = strL "cx a,a;"
    ∧ expand_once [(strL "g", ⟨[], [strL "a", strL "b"],
        [strL "cx a,b;"]⟩)] [strL "g b,a;"] = ([strL "cx a,a;"], true) := by
  exact ⟨by decide, by decide⟩

-- ---------------------------------------------------------------------------
-- DefinitionParser, BodyExtractor, Emitter.
-- ---------------------------------------------------------------------------

/-- Python `str.splitlines()` for newline-separated text (the script's
inputs use `\n`): no trailing empty line for a trailing newline. -/
def linesOf : List Char → List (List Char)
  | [] => []
  | c :: r =>
    if c = '\n' then [] :: linesOf r
    else
      match linesOf r with
      | [] => [[c]]
      | ls :: rest => (c :: ls) :: rest

/-- `'\n'.join(...)`. -/
def joinNl : List (List Char) → List Char
  | [] => []
  | [l] => l
  | l :: r :: rs => l ++ '\n' :: joinNl (r :: rs)

/-- Python `str.count(c)`. -/
def countChar (c : Char) (l : List Char) : Nat :=
  (l.filter (fun x => x = c)).length

/-- The inner block-capture loop of the parser: starting at the header
line, keep a running brace balance `count('{') - count('}')` and consume
lines until it returns to zero (or the input ends); returns the captured
block and the remaining lines. -/
def takeBlock (brace : Int) : List (List Char) →
    List (List Char) × List (List Char)
  | [] => ([], [])
  | l :: r =>
    let b := brace + (countChar '{' l : Int) - (countChar '}' l : Int)
    if b = 0 then ([l], r)
    else
      let p := takeBlock b r
      (l :: p.1, p.2)

/-- `[\w,\s]+\s*\{` with the one-whitespace backtrack when the class part
would be empty; returns group 3 and the rest after the brace. -/
def gdRest (t : List Char) : Option (List Char × List Char) :=
  let w := t.takeWhile wsChar
  let t1 := t.dropWhile wsChar
  let g := t1.takeWhile gdChar
  if g.isEmpty then
    match w.getLast?, t1 with
    | some c, '{' :: r => some ([c], r)
    | _, _ => none
  else
    match t1.drop g.length with
    | '{' :: r => some (g, r)
    | _ => none

/-- `\s*(\([^)]*\))?` then `gdRest`. -/
def gdTail (t : List Char) :
    Option (Option (List Char) × List Char × List Char) :=
  let t1 := t.dropWhile wsChar
  if headIs '(' t1 then
    let inside := t1.tail.takeWhile (· != ')')
    let r2 := t1.tail.drop inside.length
    if headIs ')' r2 then
      (gdRest r2.tail).map fun g => (some ('(' :: inside ++ [')']), g)
    else none
  else (gdRest t).map fun g => (none, g)

/-- Backtracking over the greedy name group `(\w+)` of the gate-header
pattern. -/
def gdHeads : List Char → List Char →
    Option (List Char × Option (List Char) × List Char × List Char)
  | [], _ => none
  | c :: wr, rest =>
    match gdTail rest with
    | some (g2, g3, after) => some ((c :: wr).reverse, g2, g3, after)
    | none => gdHeads wr (c :: rest)

/-- `re.match` of `\s*gate\s+(\w+)\s*(\([^)]*\))?\s*([\w,\s]+)\s*\{`;
returns (name, optional parenthesized parameter list, qubit text, rest
after the brace). -/
def gateHeader (l : List Char) :
    Option (List Char × Option (List Char) × List Char × List Char) :=
  match l.dropWhile wsChar with
  | 'g' :: 'a' :: 't' :: 'e' :: r =>
    let w1 := r.takeWhile wsChar
    if w1.isEmpty then none else
    let r1 := r.drop w1.length
    let w := r1.takeWhile wordChar
    if w.isEmpty then none else
    gdHeads w.reverse (r1.drop w.length)
  | _ => none

theorem takeBlock_rest_le : ∀ (b : Int) (ls : List (List Char)),
    (takeBlock b ls).2.length ≤ ls.length
  | _, [] => Nat.le_refl 0
  | b, l :: r => by
    rw [takeBlock]
    split
    · simp
    · simpa using Nat.le_succ_of_le (takeBlock_rest_le _ r)

theorem takeBlock_cons_lt (b : Int) (l : List Char)
    (r : List (List Char)) :
    (takeBlock b (l :: r)).2.length < (l :: r).length := by
  rw [takeBlock]
  split
  · simp
  · simpa [Nat.lt_succ_iff] using takeBlock_rest_le _ r

/-- Dictionary insert-or-update for the definition mapping
(`gate_defs[name] = ...`). -/
def insDef (ds : Defs) (k : List Char) (v : GateDef) : Defs :=
  if (List.any ds (fun p => p.1 == k)) then
    List.map (fun p => if p.1 == k then (k, v) else p) ds
  else ds ++ [(k, v)]

/-- The parse loop of step 2 of the script (`while i < n: ...`): scan
lines; on a gate-header match capture the brace-balanced block, strip the
header and closing lines, strip and drop blank body lines, and record the
definition; otherwise move on.  The fuel only needs to cover the number of
lines, since every step consumes at least one line. -/
def parseGo : Defs → Nat → List (List Char) → Defs
  | ds, 0, _ => ds
  | ds, _ + 1, [] => ds
  | ds, f + 1, l :: r =>
    match gateHeader l with
    | none => parseGo ds f r
    | some (name, params?, qubStr, _) =>
      let blk := takeBlock 0 (l :: r)
      let body := (blk.1.drop 1).dropLast
      let params := match params? with
        | none => []
        | some a => (splitComma (a.drop 1).dropLast).map strip
      let qubits := (splitComma qubStr).map strip
      let bodyS := (body.map strip).filter (fun b => !b.isEmpty)
      parseGo (insDef ds name ⟨params, qubits, bodyS⟩) f blk.2

/-- `gate_defs` built from a raw text. -/
def parse_defs (t : List Char) : Defs :=
  parseGo [] (linesOf t).length (linesOf t)

/-- One attempted match of the block-removal pattern
`(?s)^\s*gate\s+\w+\s*(\([^)]*\))?\s*[\w,\s]+\s*\{[^}]*\}\s*` (MULTILINE)
at a line-start position of the raw text; on success returns the rest of
the text after the removed span and whether the last removed character was
a newline (so the scanner knows whether the next position starts a
line). -/
def rgbMatch (t : List Char) : Option (List Char × Bool) :=
  match t.dropWhile wsChar with
  | 'g' :: 'a' :: 't' :: 'e' :: r =>
    let w1 := r.takeWhile wsChar
    if w1.isEmpty then none else
    let r1 := r.drop w1.length
    let w := r1.takeWhile wordChar
    if w.isEmpty then none else
    match gdHeads w.reverse (r1.drop w.length) with
    | none => none
    | some (_, _, _, after) =>
      let inside := after.takeWhile (· != '}')
      match after.drop inside.length with
      | '}' :: r2 =>
        let tws := r2.takeWhile wsChar
        some (r2.drop tws.length,
          match tws.getLast? with
          | some c => c = '\n'
          | none => false)
      | _ => none
  | _ => none

/-- The `re.sub(..., '', text, flags=re.MULTILINE)` scanner: at every
line-start position try the removal pattern; elsewhere copy characters. -/
def rgbGo : Bool → Nat → List Char → List Char
  | _, 0, l => l
  | _, _ + 1, [] => []
  | atStart, f + 1, c :: r =>
    if atStart then
      match rgbMatch (c :: r) with
      | some (rest, endNl) => rgbGo endNl f rest
      | none => c :: rgbGo (c = '\n') f r
    else c :: rgbGo (c = '\n') f r

/-- `remove_gate_blocks`. -/
def remove_gate_blocks (t : List Char) : List Char :=
  rgbGo true t.length t

/-- Steps 6–7 of the script: drop blank lines from the transformed body,
join with newlines, and write `header + '\n' + clean + '\n'`. -/
def emit (hd : List Char) (body : List (List Char)) : List Char :=
  hd ++ '\n' :: (joinNl (body.filter (fun l => !(strip l).isEmpty)) ++ ['\n'])

/-- The whole pipeline on a raw text, with fuel for the expansion loop:
parse definitions, remove definition blocks, split the header line from
the residual body, expand to fixpoint, and emit.  `none` when the
expansion loop does not converge within the fuel, or when the residual
text has no lines at all (where the script would crash unpacking the
header). -/
def convertText (fuel : Nat) (t : List Char) : Option (List Char) :=
  let defs := parse_defs t
  match linesOf (remove_gate_blocks t) with
  | [] => none
  | hd :: body => (expandLoop defs fuel body).map fun final => emit hd final

theorem linesOf_append_nl {a : List Char} (r : List Char)
    (h : '\n' ∉ a) : linesOf (a ++ '\n' :: r) = a :: linesOf r := by
  induction a with
  | nil => simp [linesOf]
  | cons c a' ih =>
    have hc : ¬(c = '\n') := fun he => h (he ▸ List.mem_cons_self c a')
    have ih' := ih (fun he => h (List.mem_cons_of_mem c he))
    simp only [List.cons_append, linesOf, if_neg hc, List.append_eq, ih']

theorem linesOf_joinNl :
    ∀ (ls : List (List Char)), ls ≠ [] → (∀ l ∈ ls, '\n' ∉ l) →
      linesOf (joinNl ls ++ ['\n']) = ls
  | [], h, _ => absurd rfl h
  | [l], _, hm => by
    have : joinNl [l] ++ ['\n'] = l ++ '\n' :: [] := rfl
    rw [this, linesOf_append_nl [] (hm l (by simp))]
    rfl
  | l :: r :: rs, _, hm => by
    have : joinNl (l :: r :: rs) ++ ['\n'] =
        l ++ '\n' :: (joinNl (r :: rs) ++ ['\n']) := by
      simp [joinNl, List.append_assoc]
    rw [this, linesOf_append_nl _ (hm l (by simp)),
      linesOf_joinNl (r :: rs) (by simp)
        (fun x hx => hm x (List.mem_cons_of_mem l hx))]

theorem linesOf_ne_nil {l : List Char} (h : l ≠ []) : linesOf l ≠ [] := by
  cases l with
  | nil => exact absurd rfl h
  | cons c r =>
    rw [linesOf]
    by_cases hc : c = '\n'
    · simp [hc]
    · rw [if_neg hc]
      cases linesOf r <;> simp

/-- Splitting a text at a newline splits its line list, provided the left
part is closed off by its own newline. -/
theorem linesOf_splice : ∀ (x y : List Char),
    linesOf (x ++ '\n' :: y) = linesOf (x ++ ['\n']) ++ linesOf y
  | [], y => by simp [linesOf]
  | c :: x', y => by
    by_cases hc : c = '\n'
    · subst hc
      show linesOf ('\n' :: (x' ++ '\n' :: y)) =
        linesOf ('\n' :: (x' ++ ['\n'])) ++ linesOf y
      rw [linesOf, if_pos rfl, linesOf, if_pos rfl, linesOf_splice x' y]
      rfl
    · show linesOf (c :: (x' ++ '\n' :: y)) =
        linesOf (c :: (x' ++ ['\n'])) ++ linesOf y
      rw [linesOf, if_neg hc, linesOf, if_neg hc, linesOf_splice x' y]
      have hne : linesOf (x' ++ ['\n']) ≠ [] := linesOf_ne_nil (by simp)
      obtain ⟨a, as, ha⟩ : ∃ a as, linesOf (x' ++ ['\n']) = a :: as := by
        cases hh : linesOf (x' ++ ['\n']) with
        | nil => exact absurd hh hne
        | cons a as => exact ⟨a, as, rfl⟩
      rw [ha]
      rfl

/-- The lines of a newline-join (with trailing newline) are the
concatenation of each element's own lines, elements themselves possibly
spanning several lines. -/
theorem linesOf_joinNl_flat :
    ∀ (ls : List (List Char)), ls ≠ [] →
      linesOf (joinNl ls ++ ['\n']) =
        (ls.map (fun l => linesOf (l ++ ['\n']))).flatten
  | [], h => absurd rfl h
  | [l], _ => by simp [joinNl]
  | l :: r :: rs, _ => by
    have hj : joinNl (l :: r :: rs) ++ ['\n'] =
        l ++ '\n' :: (joinNl (r :: rs) ++ ['\n']) := by
      simp [joinNl, List.append_assoc]
    rw [hj, linesOf_splice, linesOf_joinNl_flat (r :: rs) (by simp)]
    simp

/-- Claim C7 (amended): the output of the pipeline is
`header ++ '\n' ++ join(filtered body) ++ '\n'` where the filtered body
retains exactly the statements with non-blank text, so it begins with the
original first line of the residual program; and whenever the header is
non-blank, the filtered body is non-empty and no kept statement's own text
contains a blank line (multi-line statements such as the cp lowerings
qualify), the output's lines are the header followed by the lines of the
kept statements, none of them blank.  (As stated the claim is false: with
an empty transformed body the output does contain a blank line; see the
counterexample.) -/
theorem C7_blank_lines :
    (∀ fuel t out, convertText fuel t = some out →
      ∃ hd body final,
        linesOf (remove_gate_blocks t) = hd :: body ∧
        expandLoop (parse_defs t) fuel body = some final ∧
        out = emit hd final)
    ∧ (∀ hd final, '\n' ∉ hd → (strip hd).isEmpty = false →
      final.filter (fun l => !(strip l).isEmpty) ≠ [] →
      (∀ l ∈ final.filter (fun l => !(strip l).isEmpty),
        ∀ s ∈ linesOf (l ++ ['\n']), (strip s).isEmpty = false) →
      linesOf (emit hd final) =
        hd :: ((final.filter (fun l => !(strip l).isEmpty)).map
          (fun l => linesOf (l ++ ['\n']))).flatten ∧
      ∀ s ∈ linesOf (emit hd final), (strip s).isEmpty = false) := by
  constructor
  · intro fuel t out h
    simp only [convertText] at h
    cases hl : linesOf (remove_gate_blocks t) with
    | nil =>
      rw [hl] at h
      exact absurd h (by simp)
    | cons hd body =>
      rw [hl] at h
      simp only [Option.map_eq_some'] at h
      obtain ⟨final, h1, h2⟩ := h
      exact ⟨hd, body, final, rfl, h1, h2.symm⟩
  · intro hd final h1 h2 h3 h4
    have hlines : linesOf (emit hd final) =
        hd :: ((final.filter (fun l => !(strip l).isEmpty)).map
          (fun l => linesOf (l ++ ['\n']))).flatten := by
      rw [emit, linesOf_append_nl _ h1, linesOf_joinNl_flat _ h3]
    refine ⟨hlines, ?_⟩
    intro s hs
    rw [hlines] at hs
    rcases List.mem_cons.mp hs with rfl | hs
    · exact h2
    · obtain ⟨L, hL, hsL⟩ := List.mem_flatten.mp hs
      obtain ⟨l, hl, rfl⟩ := List.mem_map.mp hL
      exact h4 l hl s hsL

/-- Witness for the amended C7: part one on the text `hdr;` + `h q;`, part
two with a multi-line statement, the cp lowering of `cp(x) a,b;`. -/
theorem C7_blank_lines_witness :
    (∃ hd body final,
        linesOf (remove_gate_blocks (strL "hdr;\nh q;")) = hd :: body ∧
        expandLoop (parse_defs (strL "hdr;\nh q;")) 1 body = some final ∧
        strL "hdr;\nh q;\n" = emit hd final)
    ∧ (linesOf (emit (strL "OPENQASM 2.0;") [convert_line (strL "cp(x) a,b;")]) =
        strL "OPENQASM 2.0;" ::
          (([convert_line (strL "cp(x) a,b;")].filter
            (fun l => !(strip l).isEmpty)).map
          (fun l => linesOf (l ++ ['\n']))).flatten ∧
      ∀ s ∈ linesOf (emit (strL "OPENQASM 2.0;")
          [convert_line (strL "cp(x) a,b;")]),
        (strip s).isEmpty = false) :=
  ⟨C7_blank_lines.1 1 (strL "hdr;\nh q;") (strL "hdr;\nh q;\n") (by decide),
   C7_blank_lines.2 (strL "OPENQASM 2.0;") [convert_line (strL "cp(x) a,b;")]
     (by decide) (by decide) (by decide) (by decide)⟩

/-- Counterexample to C7 as stated: on the one-line input `OPENQASM;`
(no body statements) the final output is `OPENQASM;\n\n`, which contains
an empty line. -/
theorem C7_counterexample :
    convertText 1 (strL "OPENQASM;") = some (strL "OPENQASM;\n\n") ∧
    [] ∈ linesOf (strL "OPENQASM;\n\n") := by
  exact ⟨by decide, by decide⟩

theorem word_not_ws {c : Char} (h : wordChar c = true) : wsChar c = false := by
  cases hw : wsChar c
  · rfl
  · exfalso
    simp only [wsChar, Bool.or_eq_true, decide_eq_true_eq] at hw
    rcases hw with ((((h1 | h1) | h1) | h1) | h1) | h1 <;> subst h1 <;>
      exact absurd h (by decide)

theorem word_ne {c : Char} (h : wordChar c = true) (d : Char)
    (hd : wordChar d = false) : c ≠ d := by
  rintro rfl
  rw [h] at hd
  exact absurd hd (by decide)

theorem mem_joinNl {x : Char} :
    ∀ {ls : List (List Char)}, x ∈ joinNl ls →
      x = '\n' ∨ ∃ l ∈ ls, x ∈ l := by
  intro ls
  match ls with
  | [] => intro h; simp [joinNl] at h
  | [l] => intro h; exact Or.inr ⟨l, by simp, h⟩
  | l :: r :: rs =>
    intro h
    rw [joinNl] at h
    rcases List.mem_append.mp h with h | h
    · exact Or.inr ⟨l, by simp, h⟩
    · rcases List.mem_cons.mp h with h | h
      · exact Or.inl h
      · rcases mem_joinNl h with h | ⟨m, hm, hx⟩
        · exact Or.inl h
        · exact Or.inr ⟨m, List.mem_cons_of_mem l hm, hx⟩

theorem countChar_not_mem {c : Char} {l : List Char} (h : c ∉ l) :
    countChar c l = 0 := by
  rw [countChar, List.length_eq_zero, List.filter_eq_nil]
  intro a ha
  simp only [decide_eq_true_eq]
  rintro rfl
  exact h ha

theorem countChar_append (c : Char) (a b : List Char) :
    countChar c (a ++ b) = countChar c a + countChar c b := by
  simp [countChar, List.filter_append]

/-- Every fuel: the remover scanner is the identity on a text none of
whose suffixes match the removal pattern. -/
theorem rgbGo_id : ∀ (f : Nat) (flag : Bool) (l : List Char),
    (∀ s, s <:+ l → rgbMatch s = none) → rgbGo flag f l = l
  | 0, _, _, _ => rfl
  | _ + 1, _, [], _ => rfl
  | f + 1, flag, c :: r, h => by
    have hr : ∀ s, s <:+ r → rgbMatch s = none :=
      fun s hs => h s (hs.trans (List.suffix_cons c r))
    have hc := h (c :: r) List.suffix_rfl
    cases flag with
    | false => simp [rgbGo, rgbGo_id f (c = '\n') r hr]
    | true => simp [rgbGo, hc, rgbGo_id f (c = '\n') r hr]

theorem parseGo_nil : ∀ (f : Nat) (ds : Defs), parseGo ds f [] = ds
  | 0, _ => rfl
  | _ + 1, _ => rfl

/-- Every fuel: the parse loop leaves the mapping unchanged on a line
list none of whose lines matches the gate-header pattern. -/
theorem parseGo_id : ∀ (f : Nat) (ds : Defs) (ls : List (List Char)),
    (∀ l ∈ ls, gateHeader l = none) → parseGo ds f ls = ds
  | 0, _, _, _ => rfl
  | _ + 1, _, [], _ => rfl
  | f + 1, ds, l :: r, h => by
    have hl := h l (by simp)
    simp only [parseGo, hl]
    exact parseGo_id f ds r (fun x hx => h x (List.mem_cons_of_mem l hx))

/-- The gate-header match on the canonical header line
`gate NAME q {`. -/
theorem gateHeader_canonical {name : List Char} (hname : name ≠ [])
    (hword : ∀ c ∈ name, wordChar c = true) :
    gateHeader (strL "gate " ++ name ++ strL " q \x7b") =
      some (name, none, strL "q ", []) := by
  obtain ⟨n0, n', rfl⟩ : ∃ n0 n', name = n0 :: n' := by
    cases name with
    | nil => exact absurd rfl hname
    | cons a r => exact ⟨a, r, rfl⟩
  have hn0 : wordChar n0 = true := hword n0 (by simp)
  have e1 : strL "gate " ++ (n0 :: n') ++ strL " q \x7b" =
      'g' :: 'a' :: 't' :: 'e' :: ' ' :: (n0 :: (n' ++ strL " q \x7b")) := rfl
  have hdw : ('g' :: 'a' :: 't' :: 'e' :: ' ' ::
      (n0 :: (n' ++ strL " q \x7b"))).dropWhile wsChar =
      'g' :: 'a' :: 't' :: 'e' :: ' ' :: (n0 :: (n' ++ strL " q \x7b")) :=
    dropWhile_cons_stop (by decide)
  have hw1 : (' ' :: (n0 :: (n' ++ strL " q \x7b"))).takeWhile wsChar
      = [' '] := by
    rw [List.takeWhile_cons, if_pos (by decide), List.takeWhile_cons,
      if_neg (by simp [word_not_ws hn0])]
  have hwn : (n0 :: (n' ++ strL " q \x7b")).takeWhile wordChar
      = n0 :: n' := by
    have h1 := @takeWhile_app_stop wordChar (n0 :: n') ' '
      (strL "q \x7b") hword (by decide)
    simpa using h1
  have hdrop : (n0 :: (n' ++ strL " q \x7b")).drop (n0 :: n').length
      = strL " q \x7b" := by
    simp only [List.length_cons, List.drop_succ_cons, List.drop_left]
  obtain ⟨c, wr, hrev⟩ : ∃ c wr, (n0 :: n').reverse = c :: wr := by
    cases h : (n0 :: n').reverse with
    | nil => exact absurd (List.reverse_eq_nil_iff.mp h) (List.cons_ne_nil n0 n')
    | cons c wr => exact ⟨c, wr, rfl⟩
  have hgt : gdTail (strL " q \x7b") = some (none, strL "q ", []) := rfl
  rw [e1, gateHeader, hdw]
  simp only [hw1, List.length_cons, List.length_nil, List.drop_succ_cons,
    List.drop_zero, List.drop_left, hwn,
    isEmpty_false_of_ne (List.cons_ne_nil n0 n'),
    Bool.false_eq_true, if_false, hdrop, hrev, List.isEmpty_cons]
  rw [gdHeads, hgt]
  rw [← hrev, List.reverse_reverse]

/-- The block-removal pattern matches, at position 0, the whole canonical
definition block `gate NAME q {\n<body>\n}\n` of a text followed by
`main;`, for bodies free of braces and newlines: the non-depth-aware
`[^}]*` runs up to the block's own closing brace exactly when the body
contains no brace. -/
theorem rgbMatch_canonical {name : List Char} {body : List (List Char)}
    (hname : name ≠ []) (hword : ∀ c ∈ name, wordChar c = true)
    (hbody : ∀ l ∈ body, '\n' ∉ l ∧ '{' ∉ l ∧ '}' ∉ l) :
    rgbMatch ((strL "gate " ++ name ++ strL " q \x7b") ++ '\n' ::
        (joinNl body ++ '\n' :: '}' :: '\n' :: strL "main;")) =
      some (strL "main;", true) := by
  obtain ⟨n0, n', rfl⟩ : ∃ n0 n', name = n0 :: n' := by
    cases name with
    | nil => exact absurd rfl hname
    | cons a r => exact ⟨a, r, rfl⟩
  have hn0 : wordChar n0 = true := hword n0 (by simp)
  set R : List Char := joinNl body ++ '\n' :: '}' :: '\n' :: strL "main;"
    with hR
  have e1 : (strL "gate " ++ (n0 :: n') ++ strL " q \x7b") ++ '\n' :: R =
      'g' :: 'a' :: 't' :: 'e' :: ' ' ::
        (n0 :: (n' ++ (' ' :: 'q' :: ' ' :: '{' :: '\n' :: R))) := by
    simp [show strL "gate " = ['g', 'a', 't', 'e', ' '] from rfl,
      show strL " q \x7b" = [' ', 'q', ' ', '{'] from rfl, List.append_assoc]
  have hdw : ('g' :: 'a' :: 't' :: 'e' :: ' ' ::
      (n0 :: (n' ++ (' ' :: 'q' :: ' ' :: '{' :: '\n' :: R)))).dropWhile
      wsChar = 'g' :: 'a' :: 't' :: 'e' :: ' ' ::
      (n0 :: (n' ++ (' ' :: 'q' :: ' ' :: '{' :: '\n' :: R))) :=
    dropWhile_cons_stop (by decide)
  have hw1 : (' ' :: (n0 :: (n' ++ (' ' :: 'q' :: ' ' :: '{' :: '\n' ::
      R)))).takeWhile wsChar = [' '] := by
    rw [List.takeWhile_cons, if_pos (by decide), List.takeWhile_cons,
      if_neg (by simp [word_not_ws hn0])]
  have hwn : (n0 :: (n' ++ (' ' :: 'q' :: ' ' :: '{' :: '\n' ::
      R))).takeWhile wordChar = n0 :: n' := by
    have h1 := @takeWhile_app_stop wordChar (n0 :: n') ' '
      ('q' :: ' ' :: '{' :: '\n' :: R) hword (by decide)
    simpa using h1
  have hgt : gdTail (' ' :: 'q' :: ' ' :: '{' :: '\n' :: R) =
      some (none, strL "q ", '\n' :: R) := by
    have hd1 : (' ' :: 'q' :: ' ' :: '{' :: '\n' :: R).dropWhile wsChar =
        'q' :: ' ' :: '{' :: '\n' :: R := by
      rw [List.dropWhile_cons, if_pos (by decide),
        dropWhile_cons_stop (by decide)]
    have ht1 : ('q' :: ' ' :: '{' :: '\n' :: R).takeWhile gdChar =
        ['q', ' '] := by
      rw [List.takeWhile_cons, if_pos (by decide), List.takeWhile_cons,
        if_pos (by decide), List.takeWhile_cons, if_neg (by decide)]
    have hw' : (' ' :: 'q' :: ' ' :: '{' :: '\n' :: R).takeWhile wsChar =
        [' '] := by
      rw [List.takeWhile_cons, if_pos (by decide), List.takeWhile_cons,
        if_neg (by decide)]
    rw [gdTail, hd1]
    simp only [headIs, decide_False, Bool.false_eq_true, if_false,
      gdRest, hw', hd1, ht1, List.isEmpty_cons, List.length_cons,
      List.length_nil, List.drop_succ_cons, List.drop_zero]
    rfl
  obtain ⟨c, wr, hrev⟩ : ∃ c wr, (n0 :: n').reverse = c :: wr := by
    cases h : (n0 :: n').reverse with
    | nil =>
      exact absurd (List.reverse_eq_nil_iff.mp h) (List.cons_ne_nil n0 n')
    | cons c wr => exact ⟨c, wr, rfl⟩
  have hgrp : ('\n' :: R) = ('\n' :: (joinNl body ++ ['\n'])) ++
      ('}' :: '\n' :: strL "main;") := by
    simp [hR, List.append_assoc]
  have hins : ('\n' :: R).takeWhile (· != '}') =
      '\n' :: (joinNl body ++ ['\n']) := by
    rw [hgrp]
    refine takeWhile_app_stop ?_ (by decide)
    intro x hx
    rcases List.mem_cons.mp hx with rfl | hx
    · decide
    · rcases List.mem_append.mp hx with hx | hx
      · rcases mem_joinNl hx with rfl | ⟨l, hl, hxl⟩
        · decide
        · exact bne_iff_ne.mpr (fun he => (hbody l hl).2.2 (he ▸ hxl))
      · rcases List.mem_cons.mp hx with rfl | hx
        · decide
        · simp at hx
  have hdrp : R.drop (joinNl body ++ ['\n']).length =
      '}' :: '\n' :: strL "main;" := by
    rw [show R = (joinNl body ++ ['\n']) ++ ('}' :: '\n' :: strL "main;")
      from by simp [hR, List.append_assoc], List.drop_left]
  have htws : ('\n' :: strL "main;").takeWhile wsChar = ['\n'] := rfl
  rw [e1, rgbMatch, hdw]
  simp only [hw1, List.length_cons, List.length_nil, List.drop_succ_cons,
    List.drop_zero, List.drop_left, hwn,
    isEmpty_false_of_ne (List.cons_ne_nil n0 n'), Bool.false_eq_true,
    if_false, hrev, List.isEmpty_cons]
  rw [gdHeads, hgt]
  simp only [hins, hdrp, htws, List.length_cons, List.length_nil,
    List.drop_succ_cons, List.drop_zero]
  rfl

theorem linesOf_joinNl_app :
    ∀ (ls : List (List Char)), ls ≠ [] → (∀ l ∈ ls, '\n' ∉ l) →
      ∀ R, linesOf (joinNl ls ++ '\n' :: R) = ls ++ linesOf R
  | [], h, _ => absurd rfl h
  | [l], _, hm => by
    intro R
    have e : joinNl [l] ++ '\n' :: R = l ++ '\n' :: R := rfl
    rw [e, linesOf_append_nl R (hm l (by simp))]
    rfl
  | l :: r :: rs, _, hm => by
    intro R
    have e : joinNl (l :: r :: rs) ++ '\n' :: R =
        l ++ '\n' :: (joinNl (r :: rs) ++ '\n' :: R) := by
      simp [joinNl, List.append_assoc]
    rw [e, linesOf_append_nl _ (hm l (by simp)),
      linesOf_joinNl_app (r :: rs) (by simp)
        (fun x hx => hm x (List.mem_cons_of_mem l hx)) R]
    rfl

theorem takeBlock_body {body : List (List Char)}
    (hb : ∀ l ∈ body, '{' ∉ l ∧ '}' ∉ l) (rest : List (List Char)) :
    takeBlock 1 (body ++ ['}'] :: rest) = (body ++ [['}']], rest) := by
  induction body with
  | nil =>
    rw [List.nil_append, takeBlock]
    norm_num [show (countChar '{' ['}'] : Int) = 0 from rfl,
      show (countChar '}' ['}'] : Int) = 1 from rfl]
  | cons l b' ih =>
    have h1 : countChar '{' l = 0 := countChar_not_mem (hb l (by simp)).1
    have h2 : countChar '}' l = 0 := countChar_not_mem (hb l (by simp)).2
    rw [List.cons_append, takeBlock]
    have ih' := ih (fun x hx => hb x (List.mem_cons_of_mem l hx))
    norm_num [h1, h2, ih']

theorem parse_defs_canonical {name : List Char} {body : List (List Char)}
    (hname : name ≠ []) (hword : ∀ c ∈ name, wordChar c = true)
    (hbne : body ≠ [])
    (hbody : ∀ l ∈ body, '\n' ∉ l ∧ '{' ∉ l ∧ '}' ∉ l) :
    parse_defs ((strL "gate " ++ name ++ strL " q \x7b") ++ '\n' ::
        (joinNl body ++ '\n' :: '}' :: '\n' :: strL "main;")) =
      [(name, ⟨[], [strL "q"],
        (body.map strip).filter (fun b => !b.isEmpty)⟩)] := by
  have hnlh : '\n' ∉ strL "gate " ++ name ++ strL " q \x7b" := by
    intro h
    rcases List.mem_append.mp h with h | h
    · rcases List.mem_append.mp h with h | h
      · exact absurd h (by decide)
      · exact absurd (hword '\n' h) (by decide)
    · exact absurd h (by decide)
  have hlines : linesOf ((strL "gate " ++ name ++ strL " q \x7b") ++ '\n' ::
      (joinNl body ++ '\n' :: '}' :: '\n' :: strL "main;")) =
      (strL "gate " ++ name ++ strL " q \x7b") ::
        (body ++ ['}'] :: [strL "main;"]) := by
    rw [linesOf_append_nl _ hnlh,
      linesOf_joinNl_app body hbne (fun l hl => (hbody l hl).1)]
    have e : linesOf ('}' :: '\n' :: strL "main;") =
        ['}'] :: [strL "main;"] := rfl
    rw [e]
  have hc1 : countChar '{' (strL "gate " ++ name ++ strL " q \x7b") = 1 := by
    rw [countChar_append, countChar_append,
      countChar_not_mem (fun h => absurd (hword '{' h) (by decide))]
    rfl
  have hc2 : countChar '}' (strL "gate " ++ name ++ strL " q \x7b") = 0 := by
    rw [countChar_append, countChar_append,
      countChar_not_mem (fun h => absurd (hword '}' h) (by decide))]
    rfl
  have htb := takeBlock_body
    (fun l hl => ⟨(hbody l hl).2.1, (hbody l hl).2.2⟩) [strL "main;"]
  have hh := gateHeader_canonical hname hword
  rw [parse_defs, hlines]
  simp only [List.length_cons, parseGo, hh, takeBlock, hc1, hc2,
    Nat.cast_one, Nat.cast_zero]
  norm_num [htb, insDef, parseGo_id _ _ [strL "main;"]
    (by intro l hl; rw [List.mem_singleton] at hl; subst hl; rfl),
    List.dropLast_concat]
  decide

theorem rgbGo_cons_match {c : Char} {r rest : List Char} {e : Bool}
    (h : rgbMatch (c :: r) = some (rest, e)) (f : Nat) :
    rgbGo true (f + 1) (c :: r) = rgbGo e f rest := by
  simp only [rgbGo, h, if_true]

theorem remove_gate_blocks_canonical {name : List Char}
    {body : List (List Char)} (hname : name ≠ [])
    (hword : ∀ c ∈ name, wordChar c = true)
    (hbody : ∀ l ∈ body, '\n' ∉ l ∧ '{' ∉ l ∧ '}' ∉ l) :
    remove_gate_blocks ((strL "gate " ++ name ++ strL " q \x7b") ++ '\n' ::
        (joinNl body ++ '\n' :: '}' :: '\n' :: strL "main;")) =
      strL "main;" := by
  have hm := rgbMatch_canonical hname hword hbody
  have htxt : (strL "gate " ++ name ++ strL " q \x7b") ++ '\n' ::
      (joinNl body ++ '\n' :: '}' :: '\n' :: strL "main;") =
      'g' :: ('a' :: 't' :: 'e' :: ' ' :: (name ++ (' ' :: 'q' :: ' ' ::
        '{' :: '\n' :: (joinNl body ++ '\n' :: '}' :: '\n' ::
          strL "main;")))) := by
    simp [show strL "gate " = ['g', 'a', 't', 'e', ' '] from rfl,
      show strL " q \x7b" = [' ', 'q', ' ', '{'] from rfl, List.append_assoc]
  have hms : ∀ s ∈ (strL "main;").tails, rgbMatch s = none := by decide
  rw [htxt] at hm
  rw [remove_gate_blocks, htxt, List.length_cons, rgbGo_cons_match hm]
  exact rgbGo_id _ _ _
    (fun s hs => hms s ((List.mem_tails _ _).mpr hs))

/-- Claim C8 (confirmed): the brace-depth parser and the non-depth-aware
remover agree — the parser records exactly the block whose removal leaves
the rest of the program — on canonical definitions whose bodies contain no
braces; and they disagree on a nested-brace body: there the remover stops
at the first `}` (leaving `x q;` and `}` behind), while the parser
captures the whole depth-balanced block. -/
theorem C8_parser_remover :
    (∀ (name : List Char) (body : List (List Char)),
      name ≠ [] → (∀ c ∈ name, wordChar c = true) → body ≠ [] →
      (∀ l ∈ body, '\n' ∉ l ∧ '{' ∉ l ∧ '}' ∉ l) →
      parse_defs ((strL "gate " ++ name ++ strL " q \x7b") ++ '\n' ::
          (joinNl body ++ '\n' :: '}' :: '\n' :: strL "main;")) =
        [(name, ⟨[], [strL "q"],
          (body.map strip).filter (fun b => !b.isEmpty)⟩)] ∧
      remove_gate_blocks ((strL "gate " ++ name ++ strL " q \x7b") ++ '\n' ::
          (joinNl body ++ '\n' :: '}' :: '\n' :: strL "main;")) =
        strL "main;")
    ∧ (parse_defs (strL "gate g q \x7b\nif \x7b h q; \x7d\nx q;\n\x7d\nmain;") =
        [(strL "g", ⟨[], [strL "q"], [strL "if \x7b h q; \x7d", strL "x q;"]⟩)]
      ∧ remove_gate_blocks
          (strL "gate g q \x7b\nif \x7b h q; \x7d\nx q;\n\x7d\nmain;") =
        strL "x q;\n\x7d\nmain;"
      ∧ remove_gate_blocks
          (strL "gate g q \x7b\nif \x7b h q; \x7d\nx q;\n\x7d\nmain;") ≠
        strL "main;") := by
  refine ⟨fun name body h1 h2 h3 h4 =>
    ⟨parse_defs_canonical h1 h2 h3 h4,
     remove_gate_blocks_canonical h1 h2 h4⟩,
    by decide, by decide, by decide⟩

/-- Witness for C8 at `gate g q { h q; }` followed by `main;`. -/
theorem C8_parser_remover_witness :
    parse_defs ((strL "gate " ++ strL "g" ++ strL " q \x7b") ++ '\n' ::
        (joinNl [strL "h q;"] ++ '\n' :: '}' :: '\n' :: strL "main;")) =
      [(strL "g", ⟨[], [strL "q"],
        (([strL "h q;"].map strip).filter (fun b => !b.isEmpty))⟩)] ∧
    remove_gate_blocks ((strL "gate " ++ strL "g" ++ strL " q \x7b") ++ '\n' ::
        (joinNl [strL "h q;"] ++ '\n' :: '}' :: '\n' :: strL "main;")) =
      strL "main;" :=
  C8_parser_remover.1 (strL "g") [strL "h q;"] (by decide) (by decide)
    (by decide) (by decide)

-- ---------------------------------------------------------------------------
-- Identifier-boundary safety of the formal-symbol substitution, in general:
-- a line presented as alternating separator stretches and maximal identifier
-- tokens.
-- ---------------------------------------------------------------------------

/-- A maximal identifier token: non-empty, word characters only. -/
def tokOK (t : List Char) : Bool := !t.isEmpty && t.all wordChar

/-- A separator stretch: word-character-free text. -/
def sepOK (s : List Char) : Bool := s.all (fun c => !wordChar c)

/-- The character left of the scan head is an end of string or a
non-word character. -/
def optNW : Option Char → Bool
  | none => true
  | some c => !wordChar c

/-- Last character of `l` if non-empty, else the fallback `p`. -/
def lastO (p : Option Char) (l : List Char) : Option Char :=
  match l.getLast? with
  | some c => some c
  | none => p

/-- A line assembled from alternating separator stretches and identifier
tokens (each pair is separator-then-token), closed by a final
separator. -/
def glue : List (List Char × List Char) → List Char → List Char
  | [], fin => fin
  | p :: r, fin => p.1 ++ (p.2 ++ glue r fin)

/-- The first pair's separator is non-empty, or the scanner is already at
a non-word position. -/
def headOK (prev : Option Char) (ps : List (List Char × List Char)) : Bool :=
  match ps with
  | [] => true
  | p :: _ => !p.1.isEmpty || optNW prev

theorem wbGo_fuel (fp ap : List Char) :
    ∀ (k : Nat) (l : List Char) (prev : Option Char) (g : Nat),
      l.length ≤ k → l.length ≤ g →
      wbGo fp ap prev k l = wbGo fp ap prev g l
  | 0, l, prev, g, hk, _ => by
    have hl : l = [] := List.length_eq_zero.mp (Nat.le_zero.mp hk)
    subst hl
    cases g <;> rfl
  | k + 1, [], prev, g, _, _ => by cases g <;> rfl
  | k + 1, c :: r, prev, g, hk, hg => by
    obtain ⟨g', rfl⟩ : ∃ g', g = g' + 1 := by
      cases g with
      | zero => exact absurd hg (by simp)
      | succ g' => exact ⟨g', rfl⟩
    have hk' : r.length ≤ k := by
      simp only [List.length_cons] at hk; omega
    have hg' : r.length ≤ g' := by
      simp only [List.length_cons] at hg; omega
    rw [wbGo, wbGo]
    by_cases h : (!fp.isEmpty && fp.isPrefixOf (c :: r) && wordB prev (some c) &&
        wordB fp.getLast? ((c :: r).drop fp.length).head?) = true
    · rw [if_pos h, if_pos h]
      have hfe : fp.isEmpty = false := by
        cases hfe : fp.isEmpty
        · rfl
        · rw [hfe] at h; simp at h
      have hdl : ((c :: r).drop fp.length).length ≤ r.length := by
        rw [List.length_drop]
        simp only [List.length_cons]
        cases fp with
        | nil => simp at hfe
        | cons a b => simp only [List.length_cons]; omega
      rw [wbGo_fuel fp ap k ((c :: r).drop fp.length) fp.getLast? g'
        (le_trans hdl hk') (le_trans hdl hg')]
    · rw [if_neg h, if_neg h]
      rw [wbGo_fuel fp ap k r (some c) g' hk' hg']

/-- The boundary-substitution scanner with fuel fixed to the input
length. -/
def wbS (fp ap : List Char) (prev : Option Char) (l : List Char) :
    List Char :=
  wbGo fp ap prev l.length l

theorem wbS_cons_no (fp ap : List Char) (prev : Option Char) (c : Char)
    (r : List Char)
    (h : (!fp.isEmpty && fp.isPrefixOf (c :: r) && wordB prev (some c) &&
        wordB fp.getLast? ((c :: r).drop fp.length).head?) = false) :
    wbS fp ap prev (c :: r) = c :: wbS fp ap (some c) r := by
  have h' : ¬((!fp.isEmpty && fp.isPrefixOf (c :: r) && wordB prev (some c) &&
      wordB fp.getLast? ((c :: r).drop fp.length).head?) = true) := by
    rw [h]; simp
  show wbGo fp ap prev (r.length + 1) (c :: r) = _
  rw [wbGo, if_neg h']
  rfl

theorem wbS_cons_yes (fp ap : List Char) (prev : Option Char) (c : Char)
    (r : List Char)
    (h : (!fp.isEmpty && fp.isPrefixOf (c :: r) && wordB prev (some c) &&
        wordB fp.getLast? ((c :: r).drop fp.length).head?) = true) :
    wbS fp ap prev (c :: r) =
      ap ++ wbS fp ap fp.getLast? ((c :: r).drop fp.length) := by
  show wbGo fp ap prev (r.length + 1) (c :: r) = _
  rw [wbGo, if_pos h]
  congr 1
  have hfe : fp.isEmpty = false := by
    cases hfe : fp.isEmpty
    · rfl
    · rw [hfe] at h; simp at h
  have hdl : ((c :: r).drop fp.length).length ≤ r.length := by
    rw [List.length_drop]
    simp only [List.length_cons]
    cases fp with
    | nil => simp at hfe
    | cons a b => simp only [List.length_cons]; omega
  exact wbGo_fuel fp ap r.length _ _ _ hdl (Nat.le_refl _)

theorem isP_append (l r : List Char) : l.isPrefixOf (l ++ r) = true := by
  induction l with
  | nil => cases r <;> rfl
  | cons a l' ih => simp [List.isPrefixOf, ih]

theorem isP_split : ∀ (l m : List Char), l.isPrefixOf m = true →
    m = l ++ m.drop l.length
  | [], m, _ => by simp
  | a :: l', [], h => by simp [List.isPrefixOf] at h
  | a :: l', b :: m', h => by
    simp only [List.isPrefixOf, Bool.and_eq_true, beq_iff_eq] at h
    obtain ⟨rfl, h2⟩ := h
    show a :: m' = a :: (l' ++ m'.drop l'.length)
    exact congrArg _ (isP_split l' m' h2)

theorem tokOK_cons {t : List Char} (ht : tokOK t = true) :
    ∃ t0 t', t = t0 :: t' ∧ wordChar t0 = true ∧ t'.all wordChar = true := by
  cases t with
  | nil => simp [tokOK] at ht
  | cons t0 t' =>
    simp only [tokOK, List.isEmpty_cons, Bool.not_false, List.all_cons,
      Bool.true_and, Bool.and_eq_true] at ht
    exact ⟨t0, t', rfl, ht.1, ht.2⟩

theorem tok_all {t : List Char} (ht : tokOK t = true) :
    ∀ c ∈ t, wordChar c = true := by
  simp only [tokOK, Bool.and_eq_true, List.all_eq_true] at ht
  exact ht.2

theorem getLast_ex (c : Char) (s : List Char) :
    ∃ x, (c :: s).getLast? = some x ∧ x ∈ c :: s :=
  ⟨(c :: s).getLast (by simp), List.getLast?_eq_getLast _ _,
    List.getLast_mem _⟩

theorem tok_getLast {t : List Char} (ht : tokOK t = true) :
    ∃ g, t.getLast? = some g ∧ wordChar g = true := by
  obtain ⟨t0, t', rfl, _, _⟩ := tokOK_cons ht
  obtain ⟨x, hx, hxm⟩ := getLast_ex t0 t'
  exact ⟨x, hx, tok_all ht x hxm⟩

theorem lastO_nil (p : Option Char) : lastO p [] = p := rfl

theorem lastO_cons (p : Option Char) (c : Char) (s : List Char) :
    lastO p (c :: s) = lastO (some c) s := by
  cases s with
  | nil => rfl
  | cons d s' =>
    rw [lastO, lastO, List.getLast?_cons_cons]
    obtain ⟨x, hx, _⟩ := getLast_ex d s'
    rw [hx]

theorem sepOK_cons {c : Char} {s : List Char} (h : sepOK (c :: s) = true) :
    wordChar c = false ∧ sepOK s = true := by
  simp only [sepOK, List.all_cons, Bool.and_eq_true, Bool.not_eq_true'] at h
  exact ⟨h.1, h.2⟩

theorem sep_mem {s : List Char} (h : sepOK s = true) :
    ∀ c ∈ s, wordChar c = false := by
  simp only [sepOK, List.all_eq_true, Bool.not_eq_true'] at h
  exact h

/-- The scanner copies a separator stretch unchanged: no match can start
on a non-word character. -/
theorem wbS_sep (fp ap : List Char) (hf : tokOK fp = true) :
    ∀ (s rest : List Char) (prev : Option Char), sepOK s = true →
      wbS fp ap prev (s ++ rest) = s ++ wbS fp ap (lastO prev s) rest
  | [], rest, prev, _ => by simp [lastO_nil]
  | c :: s', rest, prev, hs => by
    obtain ⟨hc, hs'⟩ := sepOK_cons hs
    obtain ⟨f0, f', hfp, hw0, _⟩ := tokOK_cons hf
    have hpre : fp.isPrefixOf (c :: (s' ++ rest)) = false := by
      rw [hfp]
      have hne : (f0 == c) = false :=
        beq_eq_false_iff_ne.mpr
          (fun he => by rw [he, hc] at hw0; exact absurd hw0 (by decide))
      simp [List.isPrefixOf, hne]
    have hcond : (!fp.isEmpty && fp.isPrefixOf (c :: (s' ++ rest)) &&
        wordB prev (some c) &&
        wordB fp.getLast? ((c :: (s' ++ rest)).drop fp.length).head?) = false := by
      rw [hpre, Bool.and_false, Bool.false_and, Bool.false_and]
    rw [List.cons_append, wbS_cons_no fp ap prev c (s' ++ rest) hcond,
      wbS_sep fp ap hf s' rest (some c) hs', lastO_cons]
    rfl

/-- The scanner copies word characters unchanged while the previous
character is a word character: the left boundary fails. -/
theorem wbS_wordrun (fp ap : List Char) :
    ∀ (u rest : List Char) (p : Char), u.all wordChar = true →
      wordChar p = true →
      wbS fp ap (some p) (u ++ rest) = u ++ wbS fp ap (lastO (some p) u) rest
  | [], rest, p, _, _ => by simp [lastO_nil]
  | c :: u', rest, p, hu, hp => by
    have hc : wordChar c = true ∧ u'.all wordChar = true := by
      simpa [List.all_cons, Bool.and_eq_true] using hu
    have hB : wordB (some p) (some c) = false := by
      simp [wordB, hp, hc.1]
    have hcond : (!fp.isEmpty && fp.isPrefixOf (c :: (u' ++ rest)) &&
        wordB (some p) (some c) &&
        wordB fp.getLast? ((c :: (u' ++ rest)).drop fp.length).head?) = false := by
      rw [hB, Bool.and_false, Bool.false_and]
    rw [List.cons_append, wbS_cons_no fp ap (some p) c (u' ++ rest) hcond,
      wbS_wordrun fp ap u' rest c hc.2 hc.1, lastO_cons]
    rfl

/-- A whole-identifier occurrence of the formal at a boundary position is
replaced. -/
theorem wbS_hit (fp ap rest : List Char) (prev : Option Char)
    (hf : tokOK fp = true) (hprev : optNW prev = true)
    (hrest : optNW rest.head? = true) :
    wbS fp ap prev (fp ++ rest) = ap ++ wbS fp ap fp.getLast? rest := by
  obtain ⟨f0, f', hfp, hw0, _⟩ := tokOK_cons hf
  subst hfp
  obtain ⟨g, hg, hgw⟩ := tok_getLast hf
  have hdrop : (f0 :: (f' ++ rest)).drop (f0 :: f').length = rest := by
    rw [← List.cons_append]
    exact List.drop_left _ _
  have hBl : wordB prev (some f0) = true := by
    cases prev with
    | none => simp [wordB, hw0]
    | some q =>
      have hq : wordChar q = false := by simpa [optNW] using hprev
      simp [wordB, hq, hw0]
  have hBr : wordB (f0 :: f').getLast? rest.head? = true := by
    rw [hg]
    cases hh : rest.head? with
    | none => simp [wordB, hgw]
    | some q =>
      have hq : wordChar q = false := by
        rw [hh] at hrest; simpa [optNW] using hrest
      simp [wordB, hgw, hq]
  have hpre : (f0 :: f').isPrefixOf (f0 :: (f' ++ rest)) = true :=
    isP_append (f0 :: f') rest
  have hcond : (!(f0 :: f').isEmpty &&
      (f0 :: f').isPrefixOf (f0 :: (f' ++ rest)) && wordB prev (some f0) &&
      wordB (f0 :: f').getLast?
        ((f0 :: (f' ++ rest)).drop (f0 :: f').length).head?) = true := by
    rw [hdrop, hpre, hBl, hBr]
    rfl
  have step := wbS_cons_yes (f0 :: f') ap prev f0 (f' ++ rest) hcond
  rw [List.cons_append, step, hdrop]

/-- A maximal identifier token different from the formal is copied
unchanged: either the formal is not a prefix there, or the token
continues with a word character and the right boundary fails, or the
occurrence would begin inside the token and the left boundary fails. -/
theorem wbS_miss (fp ap : List Char) (hf : tokOK fp = true)
    (t rest : List Char) (prev : Option Char) (ht : tokOK t = true)
    (hne : t ≠ fp) (hprev : optNW prev = true)
    (hrest : optNW rest.head? = true) :
    wbS fp ap prev (t ++ rest) = t ++ wbS fp ap (lastO prev t) rest := by
  obtain ⟨t0, t', htt, htw0, htw'⟩ := tokOK_cons ht
  subst htt
  have hcond : (!fp.isEmpty && fp.isPrefixOf (t0 :: (t' ++ rest)) &&
      wordB prev (some t0) &&
      wordB fp.getLast? ((t0 :: (t' ++ rest)).drop fp.length).head?) = false := by
    cases hp : fp.isPrefixOf (t0 :: (t' ++ rest)) with
    | false => rw [Bool.and_false, Bool.false_and, Bool.false_and]
    | true =>
      have hsplit : (t0 :: t') ++ rest =
          fp ++ ((t0 :: (t' ++ rest)).drop fp.length) := by
        rw [List.cons_append]
        exact isP_split fp (t0 :: (t' ++ rest)) hp
      rcases List.append_eq_append_iff.mp hsplit with
        ⟨e, he1, he2⟩ | ⟨e, he1, he2⟩
      · cases e with
        | nil =>
          exact absurd (by simpa using he1.symm) hne
        | cons e0 e' =>
          have he0 : wordChar e0 = true :=
            tok_all hf e0 (by rw [he1]; simp)
          rw [he2] at hrest
          simp [optNW, he0] at hrest
      · cases e with
        | nil =>
          exact absurd (by simpa using he1) hne
        | cons e0 e' =>
          have he0 : wordChar e0 = true :=
            tok_all ht e0 (by rw [he1]; simp)
          obtain ⟨g, hg, hgw⟩ := tok_getLast hf
          have hdh : ((t0 :: (t' ++ rest)).drop fp.length).head? = some e0 := by
            rw [he2]
            rfl
          have hBr : wordB (some g) (some e0) = false := by
            simp [wordB, hgw, he0]
          rw [hdh, hg, hBr, Bool.and_false]
  rw [List.cons_append, wbS_cons_no fp ap prev t0 (t' ++ rest) hcond,
    wbS_wordrun fp ap t' rest t0 htw' htw0, lastO_cons]
  rfl

/-- The scanner over a separator/token alternation: exactly the tokens
equal to the formal are replaced. -/
theorem wbS_glue (fp ap : List Char) (hf : tokOK fp = true) :
    ∀ (ps : List (List Char × List Char)) (fin : List Char)
      (prev : Option Char),
      (∀ p ∈ ps, sepOK p.1 = true ∧ tokOK p.2 = true) →
      sepOK fin = true →
      (∀ p ∈ ps.tail, p.1 ≠ []) →
      headOK prev ps = true →
      wbS fp ap prev (glue ps fin) =
        glue (ps.map (fun p => (p.1, if p.2 == fp then ap else p.2))) fin
  | [], fin, prev, _, hfin, _, _ => by
    have h := wbS_sep fp ap hf fin [] prev hfin
    have h0 : wbS fp ap (lastO prev fin) [] = [] := rfl
    simpa [glue, h0] using h
  | (s, t) :: ps', fin, prev, hps, hfin, htail, hhead => by
    obtain ⟨hs, ht⟩ := hps (s, t) (List.mem_cons_self _ _)
    have hprev1 : optNW (lastO prev s) = true := by
      cases s with
      | nil =>
        rw [lastO_nil]
        simpa [headOK, optNW] using hhead
      | cons c s' =>
        obtain ⟨x, hx, hxm⟩ := getLast_ex c s'
        have hw : wordChar x = false := sep_mem hs x hxm
        simp [lastO, hx, optNW, hw]
    have hrest : optNW (glue ps' fin).head? = true := by
      cases ps' with
      | nil =>
        cases fin with
        | nil => rfl
        | cons x fs =>
          have hw : wordChar x = false := sep_mem hfin x (by simp)
          simp [glue, optNW, hw]
      | cons q ps'' =>
        have hq : q.1 ≠ [] := htail q (by simp)
        obtain ⟨x, xs, hxq⟩ : ∃ x xs, q.1 = x :: xs := by
          cases hq1 : q.1 with
          | nil => exact absurd hq1 hq
          | cons x xs => exact ⟨x, xs, rfl⟩
        have hsq : sepOK q.1 = true := (hps q (by simp)).1
        have hwx : wordChar x = false := sep_mem hsq x (by rw [hxq]; simp)
        show optNW (glue (q :: ps'') fin).head? = true
        rw [glue, hxq]
        simp [optNW, hwx]
    have hps' : ∀ p ∈ ps', sepOK p.1 = true ∧ tokOK p.2 = true :=
      fun p hp => hps p (List.mem_cons_of_mem _ hp)
    have htail' : ∀ p ∈ ps'.tail, p.1 ≠ [] :=
      fun p hp => htail p (List.mem_of_mem_tail hp)
    have hhead' : ∀ q : Option Char, headOK q ps' = true := by
      intro q
      cases ps' with
      | nil => rfl
      | cons w ps'' =>
        have hw : w.1 ≠ [] := htail w (by simp)
        have hwe : w.1.isEmpty = false := by
          cases hw1 : w.1 with
          | nil => exact absurd hw1 hw
          | cons a b => rfl
        simp [headOK, hwe]
    rw [glue, wbS_sep fp ap hf s (t ++ glue ps' fin) prev hs]
    by_cases hteq : t = fp
    · subst hteq
      rw [wbS_hit t ap (glue ps' fin) (lastO prev s) hf hprev1 hrest,
        wbS_glue t ap hf ps' fin t.getLast? hps' hfin htail' (hhead' _)]
      simp [glue]
    · rw [wbS_miss fp ap hf t (glue ps' fin) (lastO prev s) ht hteq hprev1
        hrest,
        wbS_glue fp ap hf ps' fin (lastO (lastO prev s) t) hps' hfin htail'
          (hhead' _)]
      have hbe : (t == fp) = false := beq_eq_false_iff_ne.mpr hteq
      simp [glue, hbe]

/-- Claim C4 (confirmed): formal-symbol substitution is
identifier-boundary-safe, universally: for every formal token, every
actual, and every body line presented as alternating separator stretches
and maximal identifier tokens, the boundary substitution replaces exactly
the whole-identifier occurrences of the formal and leaves every other
token — in particular any longer identifier extending the formal —
untouched.  Concretely: substituting the formal `q` in `cx q,q2;` leaves
`q2` untouched for every actual text, and expansion of
`gate g q` with body `cx q,q2;` on `g a;` rewrites only the formal. -/
theorem C4_boundary_safe :
    (∀ (fp ap : List Char) (ps : List (List Char × List Char))
      (fin : List Char),
      tokOK fp = true →
      (∀ p ∈ ps, sepOK p.1 = true ∧ tokOK p.2 = true) →
      sepOK fin = true →
      (∀ p ∈ ps.tail, p.1 ≠ []) →
      wbSub fp ap (glue ps fin) =
        glue (ps.map (fun p => (p.1, if p.2 == fp then ap else p.2))) fin)
    ∧ (∀ ap : List Char,
      wbSub (strL "q") ap (strL "cx q,q2;") =
        strL "cx " ++ ap ++ strL ",q2;")
    ∧ expand_once [(strL "g", ⟨[], [strL "q"], [strL "cx q,q2;"]⟩)]
        [strL "g a;"] = ([strL "cx a,q2;"], true) := by
  refine ⟨?_, fun ap => rfl, by decide⟩
  intro fp ap ps fin hf hps hfin htail
  have hhead : headOK none ps = true := by
    cases ps with
    | nil => rfl
    | cons q r => simp [headOK, optNW]
  exact wbS_glue fp ap hf ps fin none hps hfin htail hhead

/-- Witness for C4's universal part: formal `q`, actual `a[3]`, line
`cx q,q2;` presented as its separator/token alternation; the token `q` is
replaced, the extending identifier `q2` is kept. -/
theorem C4_boundary_safe_witness :
    wbSub (strL "q") (strL "a[3]")
        (glue [(strL "", strL "cx"), (strL " ", strL "q"),
          (strL ",", strL "q2")] (strL ";")) =
      glue ([(strL "", strL "cx"), (strL " ", strL "q"),
          (strL ",", strL "q2")].map
        (fun p => (p.1, if p.2 == strL "q" then strL "a[3]" else p.2)))
        (strL ";") :=
  C4_boundary_safe.1 (strL "q") (strL "a[3]")
    [(strL "", strL "cx"), (strL " ", strL "q"), (strL ",", strL "q2")]
    (strL ";") (by decide) (by decide) (by decide) (by decide)
